import Mathlib

/-!
Verification of the patch-application engine and agent loop of the Liminal
repository (`src-tauri/src/services/ai_service.rs`), as a shallow embedding
in Lean.  Rust strings are modelled as Lean `String`s (sequences of Unicode
scalar values); Rust byte-index operations are modelled explicitly where a
claim depends on them.  Rust functions keep their source names.
-/

namespace Liminal

/-! ### String primitives

Core Lean `String` operations such as `String.trim` and `String.splitOn` are
implemented with `Substring` positions and do not reduce in the kernel, so
the Rust string primitives used by `ai_service.rs` are modelled directly on
the character list (`String.data`).
-/

/-- Model of Rust `str::starts_with`: the pattern's characters are a prefix
of the string's characters. -/
def startsWithS (s pat : String) : Bool :=
  pat.data.isPrefixOf s.data

/-- Model of Rust `str::strip_prefix`: remove a leading occurrence of `pat`,
or `none` when `s` does not start with it. -/
def stripPreS (pat s : String) : Option String :=
  if pat.data.isPrefixOf s.data then some (String.mk (s.data.drop pat.data.length)) else none

/-- Model of Rust `str::trim` on a character list (whitespace stripped from
both ends; `Char.isWhitespace` stands for Rust's `char::is_whitespace`). -/
def trimChars (cs : List Char) : List Char :=
  ((cs.dropWhile Char.isWhitespace).reverse.dropWhile Char.isWhitespace).reverse

/-- Model of Rust `str::trim`. -/
def strTrim (s : String) : String :=
  String.mk (trimChars s.data)

/-- Does `pat` occur as a contiguous substring of `s`?  Model of Rust
`str::contains` for string patterns (matches of a valid UTF-8 pattern always
fall on character boundaries, so character-level containment coincides with
Rust's byte-level containment). -/
def containsChars : List Char → List Char → Bool
  | [], pat => pat.isEmpty
  | c :: rest, pat => pat.isPrefixOf (c :: rest) || containsChars rest pat

/-- Model of Rust `str::contains` on `String`s. -/
def containsStr (s pat : String) : Bool :=
  containsChars s.data pat.data

/-- Model of Rust `str::replacen(pat, rep, 1)`: replace the leftmost
occurrence of `pat` by `rep` (an empty pattern matches at the start). -/
def replaceFirstChars (pat rep : List Char) : List Char → List Char
  | [] => if pat.isEmpty then rep else []
  | c :: rest =>
    if pat.isPrefixOf (c :: rest) then rep ++ (c :: rest).drop pat.length
    else c :: replaceFirstChars pat rep rest

/-- Model of Rust `str::replacen(pat, rep, 1)` on `String`s. -/
def replaceFirstStr (s pat rep : String) : String :=
  String.mk (replaceFirstChars pat.data rep.data s.data)

/-- Model of Rust `str::split('\n')`: all fragments between line feeds are
kept, including empty ones. -/
def splitNlAux (acc : List Char) : List Char → List String
  | [] => [String.mk acc.reverse]
  | c :: cs => if c = '\n' then String.mk acc.reverse :: splitNlAux [] cs else splitNlAux (c :: acc) cs

/-- Model of Rust `str::split('\n')`. -/
def splitNl (s : String) : List String :=
  splitNlAux [] s.data

/-- Model of Rust `Vec<&str>::join("\n")` / `slice::join`. -/
def joinLines : List String → String
  | [] => ""
  | [x] => x
  | x :: y :: xs => x ++ "\n" ++ joinLines (y :: xs)

/-- Strip one trailing carriage return from a (reversed) accumulated line:
helper for the model of Rust `str::lines`. -/
def stripCrRev (acc : List Char) : List Char :=
  match acc with
  | '\r' :: t => t
  | _ => acc

/-- Model of Rust `str::lines`: split on `'\n'`, strip one `'\r'` before each
line feed, and do not produce a final empty line for a trailing line feed. -/
def rustLinesAux (acc : List Char) : List Char → List String
  | [] => if acc.isEmpty then [] else [String.mk acc.reverse]
  | c :: cs =>
    if c = '\n' then String.mk (stripCrRev acc).reverse :: rustLinesAux [] cs
    else rustLinesAux (c :: acc) cs

/-- Model of Rust `str::lines`. -/
def rustLines (s : String) : List String :=
  rustLinesAux [] s.data

/-- Model of Rust `str::split_whitespace`: maximal runs of non-whitespace
characters, with no empty fragments. -/
def splitWsAux (acc : List Char) : List Char → List String
  | [] => if acc.isEmpty then [] else [String.mk acc.reverse]
  | c :: cs =>
    if c.isWhitespace then
      (if acc.isEmpty then splitWsAux [] cs else String.mk acc.reverse :: splitWsAux [] cs)
    else splitWsAux (c :: acc) cs

/-- Model of Rust `str::split_whitespace`. -/
def splitWs (s : String) : List String :=
  splitWsAux [] s.data

/-! ### Patch data model (`ai_service.rs`, `PatchOperation` / `UpdateFileChunk`) -/

/-- A chunk within an `UpdateFile` operation (`struct UpdateFileChunk`). -/
structure UpdateFileChunk where
  change_context : Option String
  old_lines : List String
  new_lines : List String
  is_end_of_file : Bool
deriving DecidableEq

/-- A parsed patch operation (`enum PatchOperation`). -/
inductive PatchOperation where
  | AddFile (path : String) (content : String)
  | UpdateFile (path : String) (chunks : List UpdateFileChunk)
  | DeleteFile (path : String)
deriving DecidableEq

/-! ### Patch parser (`parse_patch` / `parse_update_chunk`) -/

/-- Is this trimmed line one of the `***` directive boundaries recognised by
the update-file loop and the chunk parser? -/
def isDirectiveBoundary (t : String) : Bool :=
  startsWithS t "*** Add File:" || startsWithS t "*** Update File:" ||
    startsWithS t "*** Delete File:" || startsWithS t "*** End Patch"

/-- Body loop of `parse_update_chunk`: classify each following line by its
first character, returning `(old_lines, new_lines, is_end_of_file,
lines_consumed)`.  Mirrors the `for line in &lines[start_idx..]` loop. -/
def chunkBody : List String → List String × List String × Bool × Nat
  | [] => ([], [], false, 0)
  | line :: rest =>
    let trimmed := strTrim line
    if startsWithS trimmed "@@" || isDirectiveBoundary trimmed then ([], [], false, 0)
    else if trimmed = "*** End of File" then ([], [], true, 1)
    else if line = "" then
      let r := chunkBody rest
      ("" :: r.1, "" :: r.2.1, r.2.2.1, r.2.2.2 + 1)
    else
      match stripPreS " " line with
      | some rest' =>
        let r := chunkBody rest
        (rest' :: r.1, rest' :: r.2.1, r.2.2.1, r.2.2.2 + 1)
      | none =>
        match stripPreS "+" line with
        | some rest' =>
          let r := chunkBody rest
          (r.1, rest' :: r.2.1, r.2.2.1, r.2.2.2 + 1)
        | none =>
          match stripPreS "-" line with
          | some rest' =>
            let r := chunkBody rest
            (rest' :: r.1, r.2.1, r.2.2.1, r.2.2.2 + 1)
          | none => ([], [], false, 0)

/-- Package the body of a chunk, discarding a chunk whose `old_lines` and
`new_lines` are both empty (tail of `parse_update_chunk`). -/
def buildChunk (ctx : Option String) (start_idx : Nat) (body : List String) :
    Option UpdateFileChunk × Nat :=
  let r := chunkBody body
  if r.1.isEmpty && r.2.1.isEmpty then (none, start_idx + r.2.2.2)
  else (some ⟨ctx, r.1, r.2.1, r.2.2.1⟩, start_idx + r.2.2.2)

/-- Model of `parse_update_chunk`: parse one chunk from the given lines,
returning the chunk (if any) and the number of lines consumed. -/
def parse_update_chunk : List String → Option UpdateFileChunk × Nat
  | [] => (none, 0)
  | first_line :: rest =>
    let trimmed := strTrim first_line
    if trimmed = "@@" then buildChunk none 1 rest
    else
      match stripPreS "@@ " trimmed with
      | some ctx => buildChunk (some ctx) 1 rest
      | none =>
        if startsWithS trimmed "@@" then
          let ctx := strTrim (String.mk (trimmed.data.drop 2))
          if ctx = "" then buildChunk none 1 rest else buildChunk (some ctx) 1 rest
        else if startsWithS first_line " " || startsWithS first_line "+" || startsWithS first_line "-" then
          buildChunk none 0 (first_line :: rest)
        else (none, 1)

/-- Content-accumulation loop of the `*** Add File:` branch of `parse_patch`:
every line up to the next `***`-prefixed line is inspected; a line with a
`+` prefix contributes its remainder plus a line feed, any other line is
skipped.  Returns the content and the unconsumed suffix. -/
def parseAddContent : List String → String × List String
  | [] => ("", [])
  | l :: rest =>
    if startsWithS l "***" then ("", l :: rest)
    else
      match stripPreS "+" l with
      | some stripped =>
        let r := parseAddContent rest
        (stripped ++ "\n" ++ r.1, r.2)
      | none => parseAddContent rest

/-- Chunk-accumulation loop of the `*** Update File:` branch of
`parse_patch`, written with explicit fuel (each pass consumes at least one
line, so `fuel = length` suffices and the `0` case is unreachable).  Returns
the chunks and the unconsumed suffix. -/
def parseUpdateChunksF : Nat → List String → List UpdateFileChunk × List String
  | 0, ls => ([], ls)
  | _, [] => ([], [])
  | fuel + 1, l :: rest =>
    let t := strTrim l
    if isDirectiveBoundary t then ([], l :: rest)
    else if t = "" then parseUpdateChunksF fuel rest
    else
      let pc := parse_update_chunk (l :: rest)
      let k := max pc.2 1
      let r := parseUpdateChunksF fuel ((l :: rest).drop k)
      (match pc.1 with
       | some c => c :: r.1
       | none => r.1, r.2)

/-- Chunk-accumulation loop of the `*** Update File:` branch. -/
def parseUpdateChunks (ls : List String) : List UpdateFileChunk × List String :=
  parseUpdateChunksF ls.length ls

/-- Main directive loop of `parse_patch`, with explicit fuel (each iteration
consumes at least one line). -/
def parsePatchOpsF : Nat → List String → List PatchOperation
  | 0, _ => []
  | _, [] => []
  | fuel + 1, l :: rest =>
    let t := strTrim l
    if startsWithS t "*** End Patch" then []
    else
      match stripPreS "*** Add File:" t with
      | some p =>
        let r := parseAddContent rest
        .AddFile (strTrim p) r.1 :: parsePatchOpsF fuel r.2
      | none =>
        match stripPreS "*** Update File:" t with
        | some p =>
          let r := parseUpdateChunks rest
          .UpdateFile (strTrim p) r.1 :: parsePatchOpsF fuel r.2
        | none =>
          match stripPreS "*** Delete File:" t with
          | some p => .DeleteFile (strTrim p) :: parsePatchOpsF fuel rest
          | none => parsePatchOpsF fuel rest

/-- Main directive loop of `parse_patch` over the lines after the begin
marker. -/
def parsePatchOps (ls : List String) : List PatchOperation :=
  parsePatchOpsF ls.length ls

/-- Model of `parse_patch`: scan forward for a line whose trimmed content
starts with `*** Begin Patch` (its absence is the error `"No patch found in
output"`), then run the directive loop on the following lines. -/
def parse_patch (patch : String) : Except String (List PatchOperation) :=
  let lines := rustLines patch
  match lines.dropWhile (fun l => !(startsWithS (strTrim l) "*** Begin Patch")) with
  | [] => .error "No patch found in output"
  | _ :: rest => .ok (parsePatchOps rest)

/-! ### Chunk locator (`seek_sequence` / `find_line_fuzzy`) -/

/-- Does `pattern` occur exactly (byte-for-byte) at index `i` of `lines`?
Models the comparison `lines[i..i + pattern.len()] == *pattern`. -/
def sliceEqB (lines : List String) (i : Nat) (pattern : List String) : Bool :=
  decide ((lines.drop i).take pattern.length = pattern)

/-- Does `pattern` occur at index `i` of `lines` with every line compared
after trimming?  Models the inner `lines[i + p_idx].trim() != pat.trim()`
loop of `seek_sequence` (at the indices scanned there, `i + pattern.len() ≤
lines.len()`, so taking the whole slice is the same as indexing). -/
def trimSliceEqB (lines : List String) (i : Nat) (pattern : List String) : Bool :=
  decide (((lines.drop i).take pattern.length).map strTrim = pattern.map strTrim)

/-- Trimmed comparison used by the wrap-around scan of `seek_sequence`, whose
inner loop additionally rejects an index when `i + p_idx` runs past the end
of `lines` (the indices are contiguous, so that check amounts to a bound on
the last one). -/
def wrapMatchB (lines : List String) (i : Nat) (pattern : List String) : Bool :=
  decide (i + pattern.length ≤ lines.length) && trimSliceEqB lines i pattern

/-- The search origin of `seek_sequence`: `lines.len() - pattern.len()`
when `eof` is set (and feasible), else `start` clamped with
`start.min(lines.len().saturating_sub(pattern.len()))`. -/
def searchOriginOf (lines pattern : List String) (start : Nat) (eof : Bool) : Nat :=
  if eof && decide (pattern.length ≤ lines.length) then lines.length - pattern.length
  else min start (lines.length - pattern.length)

/-- Model of `seek_sequence` (Codex-style): exact scan from the search
origin, then trimmed scan from the origin, then trimmed wrap-around scan
from index 0 up to the origin. -/
def seek_sequence (lines pattern : List String) (start : Nat) (eof : Bool) : Option Nat :=
  if pattern.isEmpty then some start
  else if lines.length < pattern.length then none
  else
    let search_start := searchOriginOf lines pattern start eof
    let cnt := lines.length - pattern.length + 1 - search_start
    match (List.range' search_start cnt).find? (fun i => sliceEqB lines i pattern) with
    | some i => some i
    | none =>
      match (List.range' search_start cnt).find? (fun i => trimSliceEqB lines i pattern) with
      | some i => some i
      | none =>
        if 0 < search_start then
          (List.range search_start).find? (fun i => wrapMatchB lines i pattern)
        else none

/-- Loose single-line comparison of `find_line_fuzzy`'s second pass: the
document line contains the trimmed target, or the trimmed target contains
the trimmed document line. -/
def fuzzyContains (line tt : String) : Bool :=
  containsStr line tt || containsStr tt (strTrim line)

/-- Model of `find_line_fuzzy`: first index with exact trimmed equality,
else first index with containment in either direction, else first index
whose first three whitespace-separated tokens agree with the target's. -/
def find_line_fuzzy (lines : List String) (target : String) : Option Nat :=
  let tt := strTrim target
  match lines.findIdx? (fun line => strTrim line = tt) with
  | some i => some i
  | none =>
    match lines.findIdx? (fun line => fuzzyContains line tt) with
    | some i => some i
    | none =>
      let tw := (splitWs tt).take 3
      if !tw.isEmpty then
        lines.findIdx? (fun line => decide ((splitWs (strTrim line)).take 3 = tw))
      else none

/-! ### Replacement applier (`compute_replacements` / `apply_replacements` /
`apply_update_chunks`) -/

/-- Loose line match of the fuzzy-anchor fallback in `compute_replacements`:
trim-equal, or substring containment in either direction (both operands
trimmed first). -/
def looseLineMatch (orig old : String) : Bool :=
  let o := strTrim orig
  let d := strTrim old
  o = d || containsChars o.data d.data || containsChars d.data o.data

/-- `match_count` loop of the fuzzy-anchor fallback: count old lines that
loosely match contiguously from `idx`, stopping at the first mismatch; an
out-of-range index is passed over without stopping the loop, exactly as in
the source. -/
def looseCountAux (lines : List String) (idx : Nat) : Nat → List String → Nat
  | _, [] => 0
  | i, old :: rest =>
    if idx + i < lines.length then
      if looseLineMatch (lines.getD (idx + i) "") old then
        1 + looseCountAux lines idx (i + 1) rest
      else 0
    else looseCountAux lines idx (i + 1) rest

/-- Context-anchoring step of `compute_replacements`: when `change_context`
is set, anchor it via `seek_sequence` (falling back to `find_line_fuzzy`)
and move the cursor just past the anchor; an unresolved anchor leaves the
cursor unmoved. -/
def ctxCursor (original : List String) (li0 : Nat) : Option String → Nat
  | none => li0
  | some ctx_line =>
    match seek_sequence original [ctx_line] li0 false with
    | some idx => idx + 1
    | none =>
      match find_line_fuzzy original ctx_line with
      | some idx => idx + 1
      | none => li0

/-- One step of `compute_replacements`'s chunk loop.  State is the list of
replacements recorded so far together with the cursor `line_index`. -/
def chunkStep (original : List String)
    (acc : List (Nat × Nat × List String) × Nat) (chunk : UpdateFileChunk) :
    List (Nat × Nat × List String) × Nat :=
  let repl := acc.1
  let li := ctxCursor original acc.2 chunk.change_context
  if chunk.old_lines.isEmpty then
    let insertion_idx := if chunk.is_end_of_file then original.length else min li original.length
    (repl ++ [(insertion_idx, 0, chunk.new_lines)], li)
  else
    let pattern := chunk.old_lines
    let f0 := seek_sequence original pattern li chunk.is_end_of_file
    let f1 :=
      if f0.isNone && decide (pattern.getLast? = some "") then
        seek_sequence original pattern.dropLast li chunk.is_end_of_file
      else f0
    let f2 :=
      if f1.isNone then
        match pattern.find? (fun s => !decide (strTrim s = "")) with
        | some first_line =>
          match find_line_fuzzy original first_line with
          | some idx => if 0 < looseCountAux original idx 0 pattern then some idx else none
          | none => none
        | none => none
      else f1
    if f2.isNone && decide (0 < li) then
      (repl ++ [(li, 0, chunk.new_lines)], li)
    else
      match f2 with
      | some start_idx => (repl ++ [(start_idx, pattern.length, chunk.new_lines)], start_idx + pattern.length)
      | none => (repl ++ [(original.length, 0, chunk.new_lines)], li)

/-- Stable ascending sort by start index, modelling
`replacements.sort_by(|(lhs, _, _), (rhs, _, _)| lhs.cmp(rhs))` (Rust
`sort_by` is stable, as is insertion sort). -/
def sortByStart (l : List (Nat × Nat × List String)) : List (Nat × Nat × List String) :=
  l.insertionSort (fun a b => a.1 ≤ b.1)

/-- Model of `compute_replacements`: run the chunk loop from cursor 0 and
sort the recorded replacements ascending by start index.  (The Rust function
returns `Result` but never produces an `Err`, so the model returns the list
directly.) -/
def compute_replacements (original_lines : List String) (chunks : List UpdateFileChunk) :
    List (Nat × Nat × List String) :=
  sortByStart (chunks.foldl (chunkStep original_lines) ([], 0)).1

/-- Removal loop of `apply_replacements`: remove `old_len` lines at
`start_idx`, skipping the removal when the index is out of range, exactly as
in the source. -/
def removeOldAux : Nat → List String → Nat → List String
  | 0, lines, _ => lines
  | k + 1, lines, s => if s < lines.length then removeOldAux k (lines.eraseIdx s) s else removeOldAux k lines s

/-- Insertion loop of `apply_replacements`: insert the new segment line by
line starting at `s`.  Rust `Vec::insert` panics when the index exceeds the
current length; the panic is modelled as `none`.  It is reachable: a
fuzzy-anchored chunk can advance the cursor past the end of the document,
and a later unresolvable chunk then degrades to a pure insertion at that
out-of-range cursor. -/
def insertSegAux : List String → Nat → List String → Option (List String)
  | lines, _, [] => some lines
  | lines, s, e :: rest =>
    if s ≤ lines.length then insertSegAux (lines.insertIdx s e) (s + 1) rest
    else none

/-- One replacement step of `apply_replacements`: remove, insert (possibly
panicking), record the 1-indexed positions of the inserted lines, and
collect the inserted text.  A panic aborts the whole application, so the
partially pushed numbers at the moment of the panic are not observable. -/
def applyOneRepl (acc : List String × List Nat × List String)
    (r : Nat × Nat × List String) : Option (List String × List Nat × List String) :=
  let lines := removeOldAux r.2.1 acc.1 r.1
  match insertSegAux lines r.1 r.2.2 with
  | none => none
  | some lines2 =>
    some (lines2, acc.2.1 ++ (List.range r.2.2.length).map (fun o => r.1 + o + 1),
      acc.2.2 ++ r.2.2)

/-- The replacement loop of `apply_replacements` over the descending list,
stopping at a panic. -/
def applyLoop : List (Nat × Nat × List String) → List String × List Nat × List String →
    Option (List String × List Nat × List String)
  | [], acc => some acc
  | r :: rs, acc =>
    match applyOneRepl acc r with
    | none => none
    | some acc2 => applyLoop rs acc2

/-- Model of `apply_replacements`: iterate the replacements in descending
start order (reverse of the sorted list), returning the updated lines, the
1-indexed positions of every inserted line, and the inserted content joined
with line feeds; `none` is the `Vec::insert` panic. -/
def apply_replacements (lines : List String) (replacements : List (Nat × Nat × List String)) :
    Option (List String × List Nat × String) :=
  match applyLoop replacements.reverse (lines, [], []) with
  | none => none
  | some res => some (res.1, res.2.1, joinLines res.2.2)

/-- The line list `apply_update_chunks` works on: split on line feeds and
drop one trailing empty element produced by a final line feed. -/
def normSplit (s : String) : List String :=
  let l := splitNl s
  if l.getLast? = some "" then l.dropLast else l

/-- The line list after computing and applying the replacements — the state
of `new_lines` in `apply_update_chunks` just before the trailing-line-feed
fix-up; `none` when the application panics. -/
def appliedLines (original : String) (chunks : List UpdateFileChunk) : Option (List String) :=
  match apply_replacements (normSplit original) (compute_replacements (normSplit original) chunks) with
  | none => none
  | some res => some res.1

/-- Model of `apply_update_chunks`: split on line feeds, drop one trailing
empty element produced by a final line feed, compute and apply the
replacements, and append an empty line unless the result already ends with
one.  `none` is the `Vec::insert` panic of the application step.  (The Rust
function's `Result` return is never an `Err`.) -/
def apply_update_chunks (original : String) (chunks : List UpdateFileChunk) :
    Option (String × List Nat × String) :=
  let original_lines := normSplit original
  match apply_replacements original_lines (compute_replacements original_lines chunks) with
  | none => none
  | some res =>
    let new_lines := if res.1.getLast? = some "" then res.1 else res.1 ++ [""]
    some (joinLines new_lines, res.2.1, res.2.2)

/-! ### JSON values and parsing (model of `serde_json`)

`serde_json::Value` is modelled by `JsonVal`; number lexemes are kept
verbatim since the agent code only ever reads string fields.  The parser
below models `serde_json::from_str` on the JSON subset exercised by the
agent (duplicate object keys are not collapsed; the agent never produces
them). -/

/-- Model of `serde_json::Value`. -/
inductive JsonVal where
  | null
  | bool (b : Bool)
  | num (lexeme : String)
  | str (s : String)
  | arr (elems : List JsonVal)
  | obj (fields : List (String × JsonVal))

/-- The opening brace character (written via its code point throughout). -/
def openBrace : Char := Char.ofNat 123

/-- The closing brace character. -/
def closeBrace : Char := Char.ofNat 125

/-- JSON structural whitespace. -/
def jsonWsChar (c : Char) : Bool := c = ' ' || c = '\t' || c = '\n' || c = '\r'

/-- Skip JSON structural whitespace. -/
def skipJsonWs (cs : List Char) : List Char := cs.dropWhile jsonWsChar

/-- ASCII digit test. -/
def isJsonDigit (c : Char) : Bool := '0' ≤ c && c ≤ '9'

/-- Characters that may appear in a JSON number lexeme. -/
def jsonNumChar (c : Char) : Bool :=
  isJsonDigit c || c = '-' || c = '+' || c = '.' || c = 'e' || c = 'E'

/-- Value of a hexadecimal digit, read off the code point: `0`–`9` are
48–57, `a`–`f` are 97–102, `A`–`F` are 65–70. -/
def hexDigitVal (c : Char) : Option Nat :=
  let n := c.toNat
  if 48 ≤ n && n ≤ 57 then some (n - 48)
  else if 97 ≤ n && n ≤ 102 then some (n - 87)
  else if 65 ≤ n && n ≤ 70 then some (n - 55)
  else none

/-- Parse exactly four hexadecimal digits (the `\uXXXX` escape). -/
def parseHex4 : List Char → Option (Nat × List Char)
  | a :: b :: c :: d :: rest =>
    match hexDigitVal a, hexDigitVal b, hexDigitVal c, hexDigitVal d with
    | some va, some vb, some vc, some vd => some (((va * 16 + vb) * 16 + vc) * 16 + vd, rest)
    | _, _, _, _ => none
  | _ => none

/-- Single-character JSON string escapes. -/
def jsonEscChar (c : Char) : Option Char :=
  if c = '"' then some '"'
  else if c = '\\' then some '\\'
  else if c = '/' then some '/'
  else if c = 'b' then some (Char.ofNat 8)
  else if c = 'f' then some (Char.ofNat 12)
  else if c = 'n' then some '\n'
  else if c = 'r' then some '\r'
  else if c = 't' then some '\t'
  else none

/-- Parse the body of a JSON string after the opening quote, returning the
decoded characters and the remainder after the closing quote. -/
def jsonStrBodyF : Nat → List Char → Option (List Char × List Char)
  | 0, _ => none
  | _ + 1, [] => none
  | fuel + 1, c :: rest =>
    if c = '"' then some ([], rest)
    else if c = '\\' then
      match rest with
      | [] => none
      | e :: rest2 =>
        if e = 'u' then
          match parseHex4 rest2 with
          | some (n, rest3) =>
            match jsonStrBodyF fuel rest3 with
            | some (body, r) => some (Char.ofNat n :: body, r)
            | none => none
          | none => none
        else
          match jsonEscChar e with
          | some ec =>
            match jsonStrBodyF fuel rest2 with
            | some (body, r) => some (ec :: body, r)
            | none => none
          | none => none
    else
      match jsonStrBodyF fuel rest with
      | some (body, r) => some (c :: body, r)
      | none => none

mutual

/-- Parse one JSON value (model of `serde_json` value parsing). -/
def parseJsonValF : Nat → List Char → Option (JsonVal × List Char)
  | 0, _ => none
  | fuel + 1, cs0 =>
    let cs := skipJsonWs cs0
    match cs with
    | [] => none
    | c :: rest =>
      if c = openBrace then parseJsonObjFieldsF fuel rest []
      else if c = '[' then parseJsonArrElemsF fuel rest []
      else if c = '"' then
        match jsonStrBodyF (rest.length + 1) rest with
        | some (body, r) => some (.str (String.mk body), r)
        | none => none
      else if "null".data.isPrefixOf cs then some (.null, cs.drop 4)
      else if "true".data.isPrefixOf cs then some (.bool true, cs.drop 4)
      else if "false".data.isPrefixOf cs then some (.bool false, cs.drop 5)
      else if c = '-' || isJsonDigit c then
        let lex := cs.takeWhile jsonNumChar
        if lex.any isJsonDigit then some (.num (String.mk lex), cs.drop lex.length) else none
      else none

/-- Parse the members of a JSON object after the opening brace or a comma. -/
def parseJsonObjFieldsF : Nat → List Char → List (String × JsonVal) → Option (JsonVal × List Char)
  | 0, _, _ => none
  | fuel + 1, cs0, acc =>
    let cs := skipJsonWs cs0
    match cs with
    | [] => none
    | c :: rest =>
      if c = closeBrace then
        if acc.isEmpty then some (.obj [], rest) else none
      else if c = '"' then
        match jsonStrBodyF (rest.length + 1) rest with
        | none => none
        | some (key, r1) =>
          match skipJsonWs r1 with
          | ':' :: r2 =>
            match parseJsonValF fuel r2 with
            | none => none
            | some (v, r3) =>
              match skipJsonWs r3 with
              | d :: r4 =>
                if d = ',' then parseJsonObjFieldsF fuel r4 ((String.mk key, v) :: acc)
                else if d = closeBrace then some (.obj ((String.mk key, v) :: acc).reverse, r4)
                else none
              | [] => none
          | _ => none
      else none

/-- Parse the elements of a JSON array after the opening bracket or a comma. -/
def parseJsonArrElemsF : Nat → List Char → List JsonVal → Option (JsonVal × List Char)
  | 0, _, _ => none
  | fuel + 1, cs0, acc =>
    let cs := skipJsonWs cs0
    match cs with
    | ']' :: rest => if acc.isEmpty then some (.arr [], rest) else none
    | _ =>
      match parseJsonValF fuel cs with
      | none => none
      | some (v, r1) =>
        match skipJsonWs r1 with
        | ',' :: r2 => parseJsonArrElemsF fuel r2 (v :: acc)
        | ']' :: r2 => some (.arr ((v :: acc)).reverse, r2)
        | _ => none

end

/-- Model of `serde_json::from_str`: the whole input must be one JSON value
followed only by whitespace.  Two fuel units per character suffice, since at
least one character is consumed for every two recursive calls. -/
def parseJsonDoc (s : String) : Option JsonVal :=
  match parseJsonValF (2 * s.data.length + 2) s.data with
  | some (v, rest) => if (skipJsonWs rest).isEmpty then some v else none
  | none => none

/-- Model of `serde_json::Value::get` on an object (first binding wins). -/
def jsonGet (v : JsonVal) (key : String) : Option JsonVal :=
  match v with
  | .obj fields => (fields.find? (fun f => f.1 = key)).map (fun f => f.2)
  | _ => none

/-- Model of `serde_json::Value::as_str`. -/
def asStrJ : JsonVal → Option String
  | .str s => some s
  | _ => none

/-! ### Tool-call parsing (`parse_tool_call` / `parse_tool_json`) -/

/-- Tool call parsed from an agent response (`struct ToolCall`). -/
structure ToolCall where
  name : String
  arguments : JsonVal

/-- Result of executing a tool (`struct ToolResult`). -/
structure ToolResult where
  tool_name : String
  success : Bool
  output : String
deriving DecidableEq

/-- Model of `parse_tool_json`.  The serde error text interpolated into the
first failure message is abstracted to a fixed prefix. -/
def parse_tool_json (json_str : String) : Except String ToolCall :=
  match parseJsonDoc json_str with
  | none => .error ("Failed to parse tool JSON - Input: " ++ json_str)
  | some parsed =>
    match (jsonGet parsed "tool").bind asStrJ with
    | none => .error "Missing 'tool' field"
    | some tool_name => .ok ⟨tool_name, ((jsonGet parsed "arguments").getD (.obj []))⟩

/-- Whitespace skipping for the regex `\s*` (Rust regex `\s` is Unicode
whitespace, modelled by `Char.isWhitespace`). -/
def dropWsChars (cs : List Char) : List Char := cs.dropWhile Char.isWhitespace

/-- Lazy `\{[\s\S]*?\}` followed by `\s*` and the literal `closing`: extend
the brace body one character at a time, succeeding at the first closing
brace that is followed (after whitespace) by `closing`; a closing brace that
fails that test is swallowed by the lazy star, exactly as the backtracking
regex engine does.  `acc` holds the capture so far (starting at the opening
brace). -/
def lazyBraceBody (closing : List Char) (acc : List Char) : List Char → Option (List Char)
  | [] => none
  | c :: rest =>
    if c = closeBrace && closing.isPrefixOf (dropWsChars rest) then some (acc ++ [c])
    else lazyBraceBody closing (acc ++ [c]) rest

/-- Match of the regex `<tool_call>\s*(\{[\s\S]*?\})\s*</tool_call>` at the
head of the input, returning capture group 1. -/
def tryTagAt (cs : List Char) : Option (List Char) :=
  if "<tool_call>".data.isPrefixOf cs then
    match dropWsChars (cs.drop 11) with
    | c :: rest => if c = openBrace then lazyBraceBody "</tool_call>".data [c] rest else none
    | [] => none
  else none

/-- Match of the regex `\{[^{}]*"tool"[^{}]*\}` at the head of the input:
the brace body may contain no brace, so the match necessarily ends at the
first brace after the opening one, which must be a closing brace, and the
body must contain the quoted key `tool`. -/
def tryJsonToolAt : List Char → Option (List Char)
  | [] => none
  | c :: rest =>
    if c = openBrace then
      let mid := rest.takeWhile (fun x => x ≠ openBrace && x ≠ closeBrace)
      match rest.drop mid.length with
      | d :: _ =>
        if d = closeBrace && containsChars mid "\"tool\"".data then some (c :: mid ++ [d])
        else none
      | [] => none
    else none

/-- The code-fence delimiter. -/
def fenceTicks : List Char := "```".data

/-- Match of the regex ` ```(?:json)?\s*(\{[\s\S]*?\})\s*``` ` at the head
of the input, returning capture group 1; the optional `json` tag is tried
greedily with backtracking. -/
def tryFenceAt (cs : List Char) : Option (List Char) :=
  if fenceTicks.isPrefixOf cs then
    let after := cs.drop 3
    let attempt := fun (s : List Char) =>
      match dropWsChars s with
      | c :: rest => if c = openBrace then lazyBraceBody fenceTicks [c] rest else none
      | [] => none
    if "json".data.isPrefixOf after then
      match attempt (after.drop 4) with
      | some r => some r
      | none => attempt after
    else attempt after
  else none

/-- Leftmost-match search: try the matcher at every start position in
order.  This is the leftmost-first semantics of the `regex` crate. -/
def scanFirst (f : List Char → Option (List Char)) : List Char → Option (List Char)
  | [] => none
  | c :: rest =>
    match f (c :: rest) with
    | some r => some r
    | none => scanFirst f rest

/-- UTF-8 encoded size of a character. -/
def utf8SizeM (c : Char) : Nat :=
  if c.toNat < 0x80 then 1 else if c.toNat < 0x800 then 2 else if c.toNat < 0x10000 then 3 else 4

/-- UTF-8 byte length of a character sequence (Rust `str::len`). -/
def utf8LenM (cs : List Char) : Nat := (cs.map utf8SizeM).sum

/-- Model of the Rust byte slice `&s[..n]`: the characters covering the
first `n` bytes, or `none` (a panic) when `n` is not a character boundary. -/
def bytePreM : Nat → List Char → Option (List Char)
  | 0, _ => some []
  | _ + 1, [] => none
  | n + 1, c :: rest =>
    if utf8SizeM c ≤ n + 1 then
      match bytePreM (n + 1 - utf8SizeM c) rest with
      | some pre => some (c :: pre)
      | none => none
    else none

/-- Outcome of `parse_tool_call`, with the possible panic of the trailing
byte slice made explicit. -/
inductive ParseOutcome where
  | ok (tc : ToolCall)
  | err (msg : String)
  | panicked

/-- Lift `parse_tool_json`'s result into a `ParseOutcome`. -/
def exceptToOutcome : Except String ToolCall → ParseOutcome
  | .ok tc => .ok tc
  | .error e => .err e

/-- Model of `parse_tool_call`: try the `<tool_call>` tag regex, then the
bare ``{..."tool"...}`` regex, then the code-fence regex; on total failure
the error message embeds `&response[..min(len, 200)]` — a byte slice that
panics when byte 200 is not a character boundary. -/
def parse_tool_call (response : String) : ParseOutcome :=
  match scanFirst tryTagAt response.data with
  | some cap => exceptToOutcome (parse_tool_json (String.mk cap))
  | none =>
    match scanFirst tryJsonToolAt response.data with
    | some cap => exceptToOutcome (parse_tool_json (String.mk cap))
    | none =>
      match scanFirst tryFenceAt response.data with
      | some cap => exceptToOutcome (parse_tool_json (String.mk cap))
      | none =>
        match bytePreM (min (utf8LenM response.data) 200) response.data with
        | some pre => .err ("No valid tool call found in response: " ++ String.mk pre)
        | none => .panicked

/-! ### Status extraction (`extract_agent_thinking` / `truncate_text`)

Run on every model response before tool-call parsing.  The extracted text
only feeds a status event, but `truncate_text` slices the response at byte
80 and can panic, so the extraction is modelled with its panic (`none`). -/

/-- Model of Rust `str::ends_with`. -/
def endsWithS (s pat : String) : Bool :=
  pat.data.isSuffixOf s.data

/-- Byte index of the last space character, modelling `str::rfind(' ')` on
the truncated prefix. -/
def byteRFindSpaceAux : List Char → Nat → Option Nat → Option Nat
  | [], _, best => best
  | c :: rest, pos, best =>
    byteRFindSpaceAux rest (pos + utf8SizeM c) (if c = ' ' then some pos else best)

/-- Byte index of the last space character. -/
def byteRFindSpace (cs : List Char) : Option Nat :=
  byteRFindSpaceAux cs 0 none

/-- Model of `truncate_text`: trim, return short text unchanged, otherwise
slice the first `max_len` bytes — a panic (`none`) when that is not a
character boundary — and prefer breaking at the last space past the
midpoint; an ellipsis is appended. -/
def truncate_text (text : String) (max_len : Nat) : Option String :=
  let trimmed := strTrim text
  if utf8LenM trimmed.data ≤ max_len then some trimmed
  else
    match bytePreM max_len trimmed.data with
    | none => none
    | some truncated =>
      match byteRFindSpace truncated with
      | some last_space =>
        if max_len / 2 < last_space then
          match bytePreM last_space trimmed.data with
          | none => none
          | some pre => some (String.mk pre ++ "...")
        else some (String.mk truncated ++ "...")
      | none => some (String.mk truncated ++ "...")

/-- Lazy body of the regex `<thinking>\s*([\s\S]*?)\s*</thinking>` after the
opening tag and its whitespace: the shortest body whose remainder is
whitespace followed by the closing tag. -/
def thinkLazyBody (acc : List Char) : List Char → Option (List Char)
  | [] => none
  | c :: rest =>
    if "</thinking>".data.isPrefixOf (dropWsChars (c :: rest)) then some acc
    else thinkLazyBody (acc ++ [c]) rest

/-- Match of the `<thinking>` regex at the head of the input, returning
capture group 1 (the body may also be empty, checked up front). -/
def tryThinkingAt (cs : List Char) : Option (List Char) :=
  if "<thinking>".data.isPrefixOf cs then
    let after := dropWsChars (cs.drop 10)
    if "</thinking>".data.isPrefixOf after then some []
    else thinkLazyBody [] after
  else none

/-- The fallback line scan of `extract_agent_thinking`: skip blank lines,
JSON-looking lines, fence markers, tag lines, and key-like lines; truncate
the first remaining line (propagating a truncation panic as `none`), and
keep scanning when the truncation comes back empty. -/
def thinkFallback : List String → Option (Option String)
  | [] => some none
  | line :: rest =>
    let trimmed := strTrim line
    if trimmed = "" then thinkFallback rest
    else if startsWithS trimmed (String.mk [openBrace])
        || startsWithS trimmed (String.mk [closeBrace]) then thinkFallback rest
    else if startsWithS trimmed "```" then thinkFallback rest
    else if startsWithS trimmed "<" && (endsWithS trimmed ">" || containsStr trimmed "</") then
      thinkFallback rest
    else if startsWithS trimmed "\"" && containsStr trimmed ":" then thinkFallback rest
    else
      match truncate_text trimmed 80 with
      | none => none
      | some truncated => if truncated = "" then thinkFallback rest else some (some truncated)

/-- Model of `extract_agent_thinking`: first line of a `<thinking>` block if
one matches and truncates to something non-empty, else the first visually
meaningful line of the raw response.  The outer `none` is a panic of
`truncate_text`'s 80-byte slice. -/
def extract_agent_thinking (response : String) : Option (Option String) :=
  match scanFirst tryThinkingAt response.data with
  | some cap =>
    let text := strTrim (String.mk cap)
    let first_line :=
      match rustLines text with
      | f :: _ => f
      | [] => text
    match truncate_text first_line 80 with
    | none => none
    | some truncated =>
      if truncated = "" then thinkFallback (rustLines response)
      else some (some truncated)
  | none => thinkFallback (rustLines response)

/-! ### Tool execution (`execute_tool` and the `execute_*` helpers)

`file_service` reads and writes project metadata and page files on disk
(the spec's external Document Store).  It is modelled as a total in-memory
`ProjectStore`: a page read failure is an absent key, and writes always
succeed (timestamps are outside the model). -/

/-- An entry of the agent's in-memory page list (`struct PageInfo`). -/
structure PageInfo where
  filename : String
  title : String
deriving DecidableEq

/-- Model of the persistent project state touched by the generation tools:
the `meta.json` fields used (`title`, `description`, `page_order`) and the
pages directory as an association list from filename to content. -/
structure ProjectStore where
  title : String
  description : String
  page_order : List String
  files : List (String × String)
deriving DecidableEq

/-- Model of `load_page_content`: look a page up by filename (an absent key
models a filesystem read error). -/
def lookupFile : List (String × String) → String → Option String
  | [], _ => none
  | (n, c) :: rest, name => if n = name then some c else lookupFile rest name

/-- Model of `save_page_content` / `fs::write`: overwrite the page if
present, create it otherwise. -/
def saveFile : List (String × String) → String → String → List (String × String)
  | [], name, content => [(name, content)]
  | (n, c) :: rest, name, content =>
    if n = name then (n, content) :: rest else (n, c) :: saveFile rest name content

/-- Character mapping of the `slug` crate for ASCII input: alphanumerics are
lowercased, everything else becomes a dash. -/
def slugMapChar (c : Char) : Char :=
  if c.isAlpha then c.toLower else if c.isDigit then c else '-'

/-- Collapse runs of dashes to a single dash. -/
def collapseDash : List Char → List Char
  | [] => []
  | [c] => [c]
  | c :: d :: rest =>
    if c = '-' && d = '-' then collapseDash (d :: rest) else c :: collapseDash (d :: rest)

/-- Model of `slug::slugify` for ASCII input: map, collapse dashes, trim
dashes from both ends. -/
def slugifyModel (s : String) : String :=
  let mapped := collapseDash (s.data.map slugMapChar)
  String.mk (((mapped.dropWhile (· = '-')).reverse.dropWhile (· = '-')).reverse)

/-- Two-digit zero-padded page number, modelling `format!("{:02}", n)`. -/
def pad2 (n : Nat) : String := if n < 10 then "0" ++ toString n else toString n

/-- Model of `add_page_to_project`: allocate the next sequential page name,
save the content, and append the name to the page order. -/
def add_page_to_project (store : ProjectStore) (title content : String) : String × ProjectStore :=
  let page_num := store.page_order.length + 1
  let page_name := pad2 page_num ++ "-" ++ slugifyModel title ++ ".md"
  (page_name,
   { store with files := saveFile store.files page_name content,
                page_order := store.page_order ++ [page_name] })

/-- Agent state during generation (`struct AgentState`); the `project_id`
field is represented by passing the project's `ProjectStore` alongside. -/
structure AgentState where
  pages : List PageInfo
  book_title : Option String
  is_finished : Bool
  iteration : Nat
  max_iterations : Nat
deriving DecidableEq

/-- Argument extraction
`tool_call.arguments.get(key).and_then(|v| v.as_str()).unwrap_or(dflt)`. -/
def argStrD (args : JsonVal) (key dflt : String) : String :=
  ((jsonGet args key).bind asStrJ).getD dflt

/-- Model of `execute_create_file` (the store write always succeeds). -/
def execute_create_file (tool_call : ToolCall) (state : AgentState) (store : ProjectStore) :
    ToolResult × AgentState × ProjectStore :=
  let title := argStrD tool_call.arguments "title" "Untitled"
  let content := argStrD tool_call.arguments "content" ""
  let r := add_page_to_project store title content
  (⟨"create_file", true, "Created page '" ++ title ++ "' as " ++ r.1⟩,
   { state with pages := state.pages ++ [⟨r.1, title⟩] }, r.2)

/-- Model of `execute_edit_file`: load the page, require `old_content` to
occur verbatim, replace its first occurrence only, and save. -/
def execute_edit_file (tool_call : ToolCall) (state : AgentState) (store : ProjectStore) :
    ToolResult × AgentState × ProjectStore :=
  let filename := argStrD tool_call.arguments "filename" ""
  let old_content := argStrD tool_call.arguments "old_content" ""
  let new_content := argStrD tool_call.arguments "new_content" ""
  match lookupFile store.files filename with
  | none =>
    (⟨"edit_file", false, "Failed to read file '" ++ filename ++ "'"⟩, state, store)
  | some current_content =>
    if !containsStr current_content old_content then
      (⟨"edit_file", false,
        "Could not find the specified text in '" ++ filename ++ "'. Make sure old_content matches exactly."⟩,
       state, store)
    else
      let updated_content := replaceFirstStr current_content old_content new_content
      (⟨"edit_file", true, "Successfully edited '" ++ filename ++ "'"⟩, state,
       { store with files := saveFile store.files filename updated_content })

/-- Model of `execute_read_file`. -/
def execute_read_file (tool_call : ToolCall) (state : AgentState) (store : ProjectStore) :
    ToolResult × AgentState × ProjectStore :=
  let filename := argStrD tool_call.arguments "filename" ""
  match lookupFile store.files filename with
  | some content =>
    (⟨"read_file", true, "Content of '" ++ filename ++ "':\n\n" ++ content⟩, state, store)
  | none =>
    (⟨"read_file", false, "Failed to read '" ++ filename ++ "'"⟩, state, store)

/-- Model of `execute_list_files`. -/
def execute_list_files (state : AgentState) (store : ProjectStore) :
    ToolResult × AgentState × ProjectStore :=
  if state.pages.isEmpty then
    (⟨"list_files", true, "No pages created yet."⟩, state, store)
  else
    let file_list := state.pages.map (fun p => "- " ++ p.filename ++ " (" ++ p.title ++ ")")
    (⟨"list_files", true, "Pages in project:\n" ++ joinLines file_list⟩, state, store)

/-- Model of `execute_set_book_info` (the metadata load and save always
succeed in the store model). -/
def execute_set_book_info (tool_call : ToolCall) (state : AgentState) (store : ProjectStore) :
    ToolResult × AgentState × ProjectStore :=
  let title := argStrD tool_call.arguments "title" "Untitled"
  let description := argStrD tool_call.arguments "description" ""
  (⟨"set_book_info", true, "Book info set - Title: '" ++ title ++ "', Description: '" ++ description ++ "'"⟩,
   { state with book_title := some title },
   { store with title := title, description := description })

/-- Model of `execute_finish`: set the terminal flag. -/
def execute_finish (tool_call : ToolCall) (state : AgentState) (store : ProjectStore) :
    ToolResult × AgentState × ProjectStore :=
  let summary := argStrD tool_call.arguments "summary" "Content generation complete."
  (⟨"finish", true, "Finished: " ++ summary⟩, { state with is_finished := true }, store)

/-- Model of `execute_tool`: dispatch by tool name; an unknown name is a
failed result, not an error. -/
def execute_tool (tool_call : ToolCall) (state : AgentState) (store : ProjectStore) :
    ToolResult × AgentState × ProjectStore :=
  if tool_call.name = "create_file" then execute_create_file tool_call state store
  else if tool_call.name = "edit_file" then execute_edit_file tool_call state store
  else if tool_call.name = "read_file" then execute_read_file tool_call state store
  else if tool_call.name = "list_files" then execute_list_files state store
  else if tool_call.name = "set_book_info" then execute_set_book_info tool_call state store
  else if tool_call.name = "finish" then execute_finish tool_call state store
  else (⟨tool_call.name, false, "Unknown tool: " ++ tool_call.name⟩, state, store)

/-! ### Generation agent loop (`generate_learning_material`)

The language-model client is an external collaborator; it is modelled as a
total function from the transcript to the response text.  Status events
carry no state, but the per-iteration `extract_agent_thinking` call that
feeds them can panic in `truncate_text`, so it is part of the loop model
(only its panic is observable).  The `while` condition
`!state.is_finished && state.iteration < state.max_iterations` is realised
with fuel equal to `max_iterations - iteration`, which the loop body
maintains exactly (each pass increments `iteration` by one and never
touches `max_iterations`). -/

/-- A transcript message. -/
structure Msg where
  role : String
  content : String
deriving DecidableEq

/-- The corrective user message appended on a tool-call parse failure. -/
def correctiveMsg (e : String) : String :=
  "Error parsing your response: " ++ e ++ ". Please respond with a valid tool call."

/-- The user message reporting a tool result. -/
def toolResultMsg (result : ToolResult) : String :=
  if result.success then
    "Tool '" ++ result.tool_name ++ "' executed successfully:\n" ++ result.output
  else "Tool '" ++ result.tool_name ++ "' failed:\n" ++ result.output

/-- Outcome of the agent loop, with the possible panics of
`extract_agent_thinking` and `parse_tool_call` made explicit. -/
inductive LoopOutcome where
  | done (state : AgentState) (store : ProjectStore) (messages : List Msg)
  | panicked

/-- One-pass-per-fuel-unit model of the agent loop of
`generate_learning_material`: call the model, extract the status line (a
panic in its 80-byte truncation aborts the loop), append the assistant
turn, parse a tool call (on failure append the corrective user turn and
continue), execute the tool, append the result report, and stop when
finished. -/
def genLoopF (model : List Msg → String) :
    Nat → AgentState → ProjectStore → List Msg → LoopOutcome
  | 0, state, store, messages => .done state store messages
  | fuel + 1, state, store, messages =>
    if state.is_finished then .done state store messages
    else
      let state1 := { state with iteration := state.iteration + 1 }
      let response := model messages
      match extract_agent_thinking response with
      | none => .panicked
      | some _ =>
        let messages1 := messages ++ [⟨"assistant", response⟩]
        match parse_tool_call response with
        | .panicked => .panicked
        | .err e => genLoopF model fuel state1 store (messages1 ++ [⟨"user", correctiveMsg e⟩])
        | .ok tool_call =>
          let r := execute_tool tool_call state1 store
          let messages2 := messages1 ++ [⟨"user", toolResultMsg r.1⟩]
          if r.2.1.is_finished then .done r.2.1 r.2.2 messages2
          else genLoopF model fuel r.2.1 r.2.2 messages2

/-- The agent loop of `generate_learning_material`, entered with fuel
`max_iterations - iteration`. -/
def generationLoop (model : List Msg → String) (state : AgentState) (store : ProjectStore)
    (messages : List Msg) : LoopOutcome :=
  genLoopF model (state.max_iterations - state.iteration) state store messages

/-- The initial agent state built by `generate_learning_material`:
no pages, no title, not finished, iteration 0, cap 30. -/
def initialAgentState : AgentState :=
  ⟨[], none, false, 0, 30⟩

/-! ### Specification vocabulary

Definitions used only to state properties (not part of the embedded code). -/

/-- Number of indices at which `pattern` occurs exactly as a contiguous
sublist of `lines`. -/
def countOccurrences (lines pattern : List String) : Nat :=
  ((List.range (lines.length + 1 - pattern.length)).filter
    (fun i => sliceEqB lines i pattern)).length

/-- The `+`-stripped content of a line run, each stripped line followed by a
line feed and lines without a `+` prefix skipped: the characterisation of
`parseAddContent`'s accumulated content. -/
def plusContent : List String → String
  | [] => ""
  | l :: rest =>
    match stripPreS "+" l with
    | some s => s ++ "\n" ++ plusContent rest
    | none => plusContent rest

/-- Number of non-line-feed characters of a string. -/
def strNN (s : String) : Nat :=
  (s.data.filter (fun c => c ≠ '\n')).length

/-- Total number of non-line-feed characters over a line list. -/
def lineCharsNN (L : List String) : Nat :=
  (L.map strNN).sum

/-- Total number of non-line-feed characters inserted by a chunk list's
`new_lines`. -/
def insNN (chunks : List UpdateFileChunk) : Nat :=
  (chunks.map (fun c => lineCharsNN c.new_lines)).sum

/-- Is this transcript message one of the corrective user turns appended on
a tool-call parse failure? -/
def isCorrective (m : Msg) : Bool :=
  m.role == "user" && "Error parsing your response: ".data.isPrefixOf m.content.data

/-- A model response that defeats the 200-byte truncation of
`parse_tool_call`'s failure message: 201 bytes long (one ASCII character
followed by one hundred two-byte characters), so that byte 200 falls inside
the last character. -/
def badToolResponse : String := String.mk ('a' :: List.replicate 100 'é')

/-! ## Theorems -/

/-! ### C2 — the concrete update scenario -/

/-- C2 (counterexample): on lines `["A","B","C"]` with the single chunk
`old=["B"]`, `new=["B","X"]`, the machinery reports `inserted_line_numbers
= [2,3]` — the positions of both inserted lines — not `[3]` as claimed. -/
theorem c2_counterexample :
    apply_replacements ["A", "B", "C"]
        (compute_replacements ["A", "B", "C"] [⟨none, ["B"], ["B", "X"], false⟩])
        = some (["A", "B", "X", "C"], [2, 3], "B\nX")
      ∧ ([2, 3] : List Nat) ≠ [3] := by
  exact ⟨rfl, by decide⟩

/-- C2 (amended): applying the update machinery to the line list
`["A","B","C"]` with the single chunk `old=["B"]`, `new=["B","X"]` yields
(without panicking) the line list `["A","B","X","C"]` and
`inserted_line_numbers = [2,3]`, the 1-indexed positions of all inserted
lines (re-inserted context included). -/
theorem c2_scenario :
    apply_replacements ["A", "B", "C"]
        (compute_replacements ["A", "B", "C"] [⟨none, ["B"], ["B", "X"], false⟩])
      = some (["A", "B", "X", "C"], [2, 3], "B\nX") := by
  rfl

/-! ### C4 — non-`+` lines inside an `Add File` section -/

/-- C4 (counterexample): in an `Add File` section the unprefixed line `x`
does not terminate accumulation — the later `+b` line is still appended, so
the parsed content is `"a\nb\n"`, not `"a\n"`. -/
theorem c4_counterexample :
    parse_patch "*** Begin Patch\n*** Add File: f\n+a\nx\n+b\n*** End Patch"
        = .ok [.AddFile "f" "a\nb\n"]
      ∧ ("a\nb\n" : String) ≠ "a\n" := by
  exact ⟨rfl, by decide⟩

/-- C4 (amended): while `parse_patch` accumulates an `Add File` section, a
line with no `+` prefix that is not `***`-prefixed does not terminate
accumulation: it is silently skipped, every line up to the first
`***`-prefixed line is inspected, and exactly the `+`-stripped lines among
them are appended, each with a trailing line feed. -/
theorem c4_add_file_skips_unprefixed (ls : List String) :
    parseAddContent ls
      = (plusContent (ls.takeWhile (fun l => !(startsWithS l "***"))),
         ls.dropWhile (fun l => !(startsWithS l "***"))) := by
  induction ls with
  | nil => rfl
  | cons l rest ih =>
    cases h : startsWithS l "***" with
    | true => simp [parseAddContent, h, plusContent]
    | false =>
      cases hs : stripPreS "+" l with
      | some s => simp [parseAddContent, h, hs, plusContent, ih]
      | none => simp [parseAddContent, h, hs, plusContent, ih]

/-! ### C9 — totality of `parse_tool_call` -/

/-- C9: `parse_tool_call` is *not* total — on a response longer than 200
bytes whose 200th byte is not a character boundary and which contains no
parseable tool call, the byte slice `&response[..200]` in the failure
message panics.  `badToolResponse` is 201 bytes long and its byte 200 is
the continuation byte of its last two-byte character. -/
theorem c9_panics_on_non_boundary :
    parse_tool_call badToolResponse = .panicked ∧ 200 < utf8LenM badToolResponse.data := by
  exact ⟨rfl, by decide⟩

/-! ### C5 — trailing line feed of `apply_update_chunks` -/

/-- C5 (counterexample): for the input text `"a"` and the single chunk
deleting the line `"a"`, `apply_update_chunks` returns (without panicking)
the empty string, which does not end with a line feed. -/
theorem c5_counterexample :
    apply_update_chunks "a" [⟨none, ["a"], [], false⟩] = some ("", [], "")
      ∧ ("" : String).data.getLast? ≠ some '\n' := by
  exact ⟨rfl, by decide⟩

/-! ### C7 — non-idempotence of pure insertions -/

/-- C7 (counterexample): the pure-insertion chunk list inserting the single
empty line at end-of-file (every chunk has empty `old_lines` and non-empty
`new_lines`) is idempotent on the document `"A"`: both one and two
applications yield `"A\n"`, because the inserted empty line is absorbed by
the trailing-line-feed normalisation. -/
theorem c7_counterexample :
    apply_update_chunks "A" [⟨none, [], [""], true⟩] = some ("A\n", [2], "")
      ∧ apply_update_chunks "A\n" [⟨none, [], [""], true⟩] = some ("A\n", [2], "")
      ∧ ([⟨none, [], [""], true⟩] : List UpdateFileChunk) ≠ []
      ∧ ∀ c ∈ ([⟨none, [], [""], true⟩] : List UpdateFileChunk),
          c.old_lines = [] ∧ c.new_lines ≠ [] := by
  refine ⟨rfl, rfl, by decide, by decide⟩

/-! ### C8 — the generation loop under unparseable responses -/

/-- C8 (counterexample): a model that always returns `badToolResponse` — a
text from which no tool call can be parsed — makes the generation loop
panic on the first iteration instead of appending a corrective message and
terminating normally: the 201-byte response first hits the 80-byte slice of
`truncate_text` inside `extract_agent_thinking`, and would equally hit the
200-byte slice of `parse_tool_call`'s failure message. -/
theorem c8_counterexample :
    (∀ tc, parse_tool_call badToolResponse ≠ ParseOutcome.ok tc)
      ∧ generationLoop (fun _ => badToolResponse) initialAgentState ⟨"t", "d", [], []⟩ []
          = .panicked := by
  constructor
  · intro tc h
    rw [show parse_tool_call badToolResponse = .panicked from rfl] at h
    exact ParseOutcome.noConfusion h
  · rfl

/-- The corrective user turn built from a parse error satisfies
`isCorrective`. -/
theorem isCorrective_corrective (e : String) : isCorrective ⟨"user", correctiveMsg e⟩ = true := by
  simp only [isCorrective, correctiveMsg, Bool.and_eq_true, beq_self_eq_true, true_and]
  rw [List.isPrefixOf_iff_prefix, String.data_append, String.data_append, List.append_assoc]
  exact List.prefix_append _ _

/-- Generation loop under a model whose every response survives status
extraction and fails tool-call parsing with an error: the loop runs its
full fuel, appends one assistant turn and one corrective user turn per
pass, increments only `iteration`, and leaves the store untouched. -/
theorem genLoopF_allErr (model : List Msg → String)
    (hthink : ∀ ms, ∃ v, extract_agent_thinking (model ms) = some v)
    (hfail : ∀ ms, ∃ e, parse_tool_call (model ms) = .err e) :
    ∀ (fuel : Nat) (st : AgentState) (store : ProjectStore) (msgs : List Msg),
      st.is_finished = false →
      ∃ msgsE : List Msg,
        genLoopF model fuel st store msgs
            = .done { st with iteration := st.iteration + fuel } store (msgs ++ msgsE)
          ∧ msgsE.length = 2 * fuel
          ∧ (msgsE.filter (fun m => m.role == "assistant")).length = fuel
          ∧ (msgsE.filter isCorrective).length = fuel := by
  intro fuel
  induction fuel with
  | zero =>
    intro st store msgs hfin
    exact ⟨[], by simp [genLoopF], rfl, rfl, rfl⟩
  | succ fuel ih =>
    intro st store msgs hfin
    obtain ⟨v, hv⟩ := hthink msgs
    obtain ⟨e, he⟩ := hfail msgs
    obtain ⟨msgsE, hrun, hlen, hasst, hcorr⟩ :=
      ih { st with iteration := st.iteration + 1 } store
        ((msgs ++ [⟨"assistant", model msgs⟩]) ++ [⟨"user", correctiveMsg e⟩]) hfin
    refine ⟨⟨"assistant", model msgs⟩ :: ⟨"user", correctiveMsg e⟩ :: msgsE, ?_, ?_, ?_, ?_⟩
    · show genLoopF model (fuel + 1) st store msgs = _
      simp only [genLoopF, hfin, Bool.false_eq_true, if_false, hv, he]
      simp only [hfin] at hrun
      rw [hrun]
      simp [Nat.add_assoc, Nat.add_comm 1 fuel, List.append_assoc]
    · simp [hlen, Nat.mul_add, Nat.mul_succ, Nat.add_comm]
      omega
    · simp [List.filter, hasst, isCorrective]
    · have ha : isCorrective ⟨"assistant", model msgs⟩ = false := by simp [isCorrective]
      simp [List.filter_cons, ha, isCorrective_corrective e, hcorr]

/-- C8 (amended): if on every call the model's response neither panics in
the status extraction's 80-byte truncation nor in the parse failure's
200-byte truncation — extraction returns and tool-call parsing yields an
error value — the generation loop starting from the initial agent state
makes exactly `max_iterations = 30` model calls, appends exactly one
assistant turn and one corrective user message per call, executes no tool
(state and store are otherwise unchanged), and terminates normally with
`iteration = 30`. -/
theorem c8_loop_bounded_self_correcting (model : List Msg → String)
    (store : ProjectStore) (msgs : List Msg)
    (hthink : ∀ ms, ∃ v, extract_agent_thinking (model ms) = some v)
    (hfail : ∀ ms, ∃ e, parse_tool_call (model ms) = .err e) :
    ∃ msgsE : List Msg,
      generationLoop model initialAgentState store msgs
          = .done { initialAgentState with iteration := 30 } store (msgs ++ msgsE)
        ∧ msgsE.length = 60
        ∧ (msgsE.filter (fun m => m.role == "assistant")).length = 30
        ∧ (msgsE.filter isCorrective).length = 30 := by
  exact genLoopF_allErr model hthink hfail 30 initialAgentState store msgs rfl

/-- C8 witness: the constant model response `"hello"` survives status
extraction and parses to an error on every call, and the loop runs its 30
iterations appending 30 corrective messages. -/
theorem c8_loop_bounded_self_correcting_witness :
    ∃ msgsE : List Msg,
      generationLoop (fun _ => "hello") initialAgentState ⟨"t", "d", [], []⟩ []
          = .done { initialAgentState with iteration := 30 } ⟨"t", "d", [], []⟩ ([] ++ msgsE)
        ∧ msgsE.length = 60
        ∧ (msgsE.filter (fun m => m.role == "assistant")).length = 30
        ∧ (msgsE.filter isCorrective).length = 30 :=
  c8_loop_bounded_self_correcting (fun _ => "hello") ⟨"t", "d", [], []⟩ []
    (fun _ => ⟨some "hello", rfl⟩)
    (fun _ => ⟨"No valid tool call found in response: hello", rfl⟩)

/-! ### C6 / C10 — `execute_edit_file` -/

/-- A string contains any sublist it decomposes around. -/
theorem containsChars_append_mid (pat : List Char) :
    ∀ a b : List Char, containsChars (a ++ (pat ++ b)) pat = true := by
  intro a
  induction a with
  | nil =>
    intro b
    cases hp : pat ++ b with
    | nil =>
      have : pat = [] := by cases pat <;> simp_all
      simp [containsChars, this]
    | cons c rest =>
      rw [List.nil_append]
      have : pat.isPrefixOf (c :: rest) = true := by
        rw [← hp, List.isPrefixOf_iff_prefix]
        exact List.prefix_append _ _
      simp [containsChars, this]
  | cons c a' ih =>
    intro b
    simp [containsChars, ih b]

/-- `replacen(pat, rep, 1)` at the first occurrence: if `pat` occurs right
after `a` and at no position inside `a`, exactly that occurrence is
replaced. -/
theorem replaceFirstChars_first_occ (pat rep : List Char) :
    ∀ a b : List Char,
      (∀ k, k < a.length → pat.isPrefixOf ((a ++ (pat ++ b)).drop k) = false) →
      replaceFirstChars pat rep (a ++ (pat ++ b)) = a ++ (rep ++ b) := by
  intro a
  induction a with
  | nil =>
    intro b _
    rw [List.nil_append, List.nil_append]
    cases hp : pat ++ b with
    | nil =>
      have hpe : pat = [] := by cases pat <;> simp_all
      have hbe : b = [] := by cases b <;> simp_all [hpe]
      simp [replaceFirstChars, hpe, hbe]
    | cons c rest =>
      have hpre : pat.isPrefixOf (c :: rest) = true := by
        rw [← hp, List.isPrefixOf_iff_prefix]
        exact List.prefix_append _ _
      rw [replaceFirstChars, if_pos hpre, ← hp, List.drop_left]
  | cons c a' ih =>
    intro b h
    have h0 : pat.isPrefixOf (c :: (a' ++ (pat ++ b))) = false := by
      have := h 0 (by simp)
      simpa using this
    show replaceFirstChars pat rep (c :: (a' ++ (pat ++ b))) = c :: (a' ++ (rep ++ b))
    rw [replaceFirstChars, if_neg (by simp [h0])]
    refine congrArg (c :: ·) (ih b ?_)
    intro k hk
    have := h (k + 1) (by simpa using Nat.succ_lt_succ hk)
    simpa using this

/-- An empty pattern is replaced at position 0: `replacen("", rep, 1)`
prepends `rep`. -/
theorem replaceFirstChars_nil_pat (rep : List Char) :
    ∀ s : List Char, replaceFirstChars [] rep s = rep ++ s := by
  intro s
  cases s with
  | nil => simp [replaceFirstChars]
  | cons c rest => simp [replaceFirstChars, List.isPrefixOf]

/-- Every string contains the empty pattern. -/
theorem containsChars_nil_pat : ∀ s : List Char, containsChars s [] = true := by
  intro s
  cases s with
  | nil => rfl
  | cons c rest => simp [containsChars, List.isPrefixOf]

/-- C6: for a page whose content loads, `execute_edit_file` with an
`old_content` that does not occur in the content returns `success = false`
and performs no write (state and store are unchanged); and when
`old_content` occurs, exactly its first occurrence is replaced by
`new_content` and the result is saved under the page's filename. -/
theorem c6_edit_file_exact_substring (tc : ToolCall) (st : AgentState) (store : ProjectStore)
    (content : String)
    (hload : lookupFile store.files (argStrD tc.arguments "filename" "") = some content) :
    (containsStr content (argStrD tc.arguments "old_content" "") = false →
        (execute_edit_file tc st store).1.success = false
          ∧ (execute_edit_file tc st store).2.2 = store
          ∧ (execute_edit_file tc st store).2.1 = st)
      ∧ (∀ a b : List Char,
          content.data = a ++ ((argStrD tc.arguments "old_content" "").data ++ b) →
          (∀ k, k < a.length →
            (argStrD tc.arguments "old_content" "").data.isPrefixOf (content.data.drop k) = false) →
          (execute_edit_file tc st store).1.success = true
            ∧ (execute_edit_file tc st store).2.2.files
                = saveFile store.files (argStrD tc.arguments "filename" "")
                    (String.mk (a ++ ((argStrD tc.arguments "new_content" "").data ++ b)))) := by
  constructor
  · intro hcont
    simp [execute_edit_file, hload, hcont]
  · intro a b hdec hfirst
    have hcont : containsStr content (argStrD tc.arguments "old_content" "") = true := by
      unfold containsStr
      rw [hdec]
      exact containsChars_append_mid _ a b
    have hrepl :
        replaceFirstStr content (argStrD tc.arguments "old_content" "")
            (argStrD tc.arguments "new_content" "")
          = String.mk (a ++ ((argStrD tc.arguments "new_content" "").data ++ b)) := by
      unfold replaceFirstStr
      rw [hdec]
      exact congrArg String.mk
        (replaceFirstChars_first_occ _ _ a b (fun k hk => hdec ▸ hfirst k hk))
    simp [execute_edit_file, hload, hcont, hrepl]

/-- C6 witness: in the page `"wxyxy"` the pattern `"xy"` first occurs after
`"w"`; editing replaces only that occurrence (`"wZxy"`), and the decomposed
occurrence hypotheses hold. -/
theorem c6_edit_file_exact_substring_witness :
    (execute_edit_file
        ⟨"edit_file", .obj [("filename", .str "f"), ("old_content", .str "xy"), ("new_content", .str "Z")]⟩
        initialAgentState ⟨"t", "d", [], [("f", "wxyxy")]⟩).1.success = true
      ∧ (execute_edit_file
          ⟨"edit_file", .obj [("filename", .str "f"), ("old_content", .str "xy"), ("new_content", .str "Z")]⟩
          initialAgentState ⟨"t", "d", [], [("f", "wxyxy")]⟩).2.2.files
        = [("f", "wZxy")] := by
  have h :=
    (c6_edit_file_exact_substring
        ⟨"edit_file", .obj [("filename", .str "f"), ("old_content", .str "xy"), ("new_content", .str "Z")]⟩
        initialAgentState ⟨"t", "d", [], [("f", "wxyxy")]⟩ "wxyxy" rfl).2
      "w".data "xy".data rfl (by decide)
  exact ⟨h.1, by rw [h.2]; rfl⟩

/-- C10: for a page whose content loads, `execute_edit_file` with
`old_content` equal to the empty string (in particular when the argument is
omitted, since extraction defaults to `""`) succeeds, and the saved content
is `new_content` prepended to the previous content. -/
theorem c10_empty_old_content_prepends (tc : ToolCall) (st : AgentState) (store : ProjectStore)
    (content : String)
    (hload : lookupFile store.files (argStrD tc.arguments "filename" "") = some content)
    (hold : argStrD tc.arguments "old_content" "" = "") :
    (execute_edit_file tc st store).1.success = true
      ∧ (execute_edit_file tc st store).2.2.files
          = saveFile store.files (argStrD tc.arguments "filename" "")
              (argStrD tc.arguments "new_content" "" ++ content) := by
  have hcont : containsStr content (argStrD tc.arguments "old_content" "") = true := by
    rw [hold]
    exact containsChars_nil_pat content.data
  have hrepl :
      replaceFirstStr content (argStrD tc.arguments "old_content" "")
          (argStrD tc.arguments "new_content" "")
        = argStrD tc.arguments "new_content" "" ++ content := by
    unfold replaceFirstStr
    rw [hold]
    apply String.ext
    rw [String.data_append]
    exact replaceFirstChars_nil_pat _ content.data
  simp [execute_edit_file, hload, hcont, hrepl]

/-- C10 witness: with `old_content` omitted from the arguments the edit
succeeds and prepends `new_content`. -/
theorem c10_empty_old_content_prepends_witness :
    (execute_edit_file ⟨"edit_file", .obj [("filename", .str "f"), ("new_content", .str "N")]⟩
        initialAgentState ⟨"t", "d", [], [("f", "abc")]⟩).1.success = true
      ∧ (execute_edit_file ⟨"edit_file", .obj [("filename", .str "f"), ("new_content", .str "N")]⟩
          initialAgentState ⟨"t", "d", [], [("f", "abc")]⟩).2.2.files
        = saveFile [("f", "abc")] "f" ("N" ++ "abc") :=
  c10_empty_old_content_prepends
    ⟨"edit_file", .obj [("filename", .str "f"), ("new_content", .str "N")]⟩
    initialAgentState ⟨"t", "d", [], [("f", "abc")]⟩ "abc" rfl rfl

/-! ### C3 — `seek_sequence` precedence -/

/-- `find?` over `range'` returns the first index satisfying the predicate. -/
theorem find?_range'_first (p : Nat → Bool) :
    ∀ (k a i : Nat), a ≤ i → i < a + k → p i = true →
      (∀ m, a ≤ m → m < i → p m = false) →
      (List.range' a k).find? p = some i := by
  intro k
  induction k with
  | zero => intro a i h1 h2 _ _; omega
  | succ k ih =>
    intro a i h1 h2 hp hfirst
    rw [List.range'_succ]
    rcases Nat.eq_or_lt_of_le h1 with he | hlt
    · subst he
      rw [List.find?_cons_of_pos _ hp]
    · rw [List.find?_cons_of_neg _ (by simp [hfirst a le_rfl hlt])]
      exact ih (a + 1) i hlt (by omega) hp (fun m hm1 hm2 => hfirst m (by omega) hm2)

/-- A non-empty exact slice match is in bounds. -/
theorem sliceEqB_bound (lines pattern : List String) (i : Nat)
    (hp : pattern ≠ []) (h : sliceEqB lines i pattern = true) :
    i + pattern.length ≤ lines.length := by
  have hsl := of_decide_eq_true h
  have hlen := congrArg List.length hsl
  rw [List.length_take, List.length_drop] at hlen
  have hple : pattern.length ≤ lines.length - i := min_eq_left_iff.mp hlen
  have hp1 : 1 ≤ pattern.length := by
    cases pattern with
    | nil => exact absurd rfl hp
    | cons x xs => simp
  omega

/-- The search origin never exceeds the last feasible match index. -/
theorem searchOriginOf_le (lines pattern : List String) (start : Nat) (eof : Bool) :
    searchOriginOf lines pattern start eof ≤ lines.length - pattern.length := by
  unfold searchOriginOf
  split
  · exact le_rfl
  · exact min_le_right _ _

/-- C3: when the document contains an exact copy of a non-empty pattern at
or after the search origin (the first one at index `i`) and a
whitespace-varied (trim-equal but not byte-equal) copy at a different index
`j` at or after the origin, `seek_sequence` returns the exact copy's index:
the exact scan runs before any trimmed comparison. -/
theorem c3_exact_match_wins (lines pattern : List String) (start : Nat) (eof : Bool) (i j : Nat)
    (hp : pattern ≠ [])
    (hi_ge : searchOriginOf lines pattern start eof ≤ i)
    (hi : sliceEqB lines i pattern = true)
    (hfirst : ∀ m, m < i → searchOriginOf lines pattern start eof ≤ m →
        sliceEqB lines m pattern = false)
    (hj_ge : searchOriginOf lines pattern start eof ≤ j) (_hji : j ≠ i)
    (hj_trim : trimSliceEqB lines j pattern = true)
    (hj_ne : sliceEqB lines j pattern = false) :
    seek_sequence lines pattern start eof = some i := by
  have hbound : i + pattern.length ≤ lines.length := sliceEqB_bound lines pattern i hp hi
  have hp1 : 1 ≤ pattern.length := by
    cases pattern with
    | nil => exact absurd rfl hp
    | cons x xs => simp
  have horig : searchOriginOf lines pattern start eof ≤ lines.length - pattern.length :=
    searchOriginOf_le lines pattern start eof
  have hempty : pattern.isEmpty = false := by
    cases pattern with
    | nil => exact absurd rfl hp
    | cons x xs => rfl
  have hfound :
      (List.range' (searchOriginOf lines pattern start eof)
          (lines.length - pattern.length + 1 - searchOriginOf lines pattern start eof)).find?
        (fun m => sliceEqB lines m pattern) = some i := by
    refine find?_range'_first _ _ _ _ hi_ge (by omega) hi ?_
    intro m hm1 hm2
    exact hfirst m hm2 hm1
  rw [seek_sequence, if_neg (by simp [hempty]), if_neg (by omega)]
  simp only [hfound]

/-- C3 witness: in `["x", "A ", "A"]` the exact copy of `["A"]` sits at
index 2 and the trim-equal copy `"A "` at index 1; the exact copy wins. -/
theorem c3_exact_match_wins_witness :
    sliceEqB ["x", "A ", "A"] 2 ["A"] = true
      ∧ trimSliceEqB ["x", "A ", "A"] 1 ["A"] = true
      ∧ sliceEqB ["x", "A ", "A"] 1 ["A"] = false
      ∧ seek_sequence ["x", "A ", "A"] ["A"] 0 false = some 2 :=
  ⟨by decide, by decide, by decide,
    c3_exact_match_wins ["x", "A ", "A"] ["A"] 0 false 2 1 (by decide) (by decide) (by decide)
      (by decide) (by decide) (by decide) (by decide) (by decide)⟩

/-! ### C1 — a uniquely occurring `old_lines` is replaced in place -/

/-- `seek_sequence` succeeds (with an in-bounds index) whenever an exact
occurrence of the pattern exists anywhere, for every start and `eof` flag:
an occurrence at or after the origin is caught by the exact scan, one
before it by the wrap-around trimmed scan. -/
theorem seek_sequence_found (lines pattern : List String) (start : Nat) (eof : Bool)
    (hp : pattern ≠ []) (j : Nat) (hj : sliceEqB lines j pattern = true) :
    ∃ i, seek_sequence lines pattern start eof = some i
      ∧ i + pattern.length ≤ lines.length := by
  have hjb : j + pattern.length ≤ lines.length := sliceEqB_bound lines pattern j hp hj
  have hp1 : 1 ≤ pattern.length := by
    cases pattern with
    | nil => exact absurd rfl hp
    | cons x xs => simp
  have hempty : pattern.isEmpty = false := by
    cases pattern with
    | nil => exact absurd rfl hp
    | cons x xs => rfl
  have horig : searchOriginOf lines pattern start eof ≤ lines.length - pattern.length :=
    searchOriginOf_le lines pattern start eof
  rw [seek_sequence, if_neg (by simp [hempty]), if_neg (by omega)]
  cases h1 : (List.range' (searchOriginOf lines pattern start eof)
      (lines.length - pattern.length + 1 - searchOriginOf lines pattern start eof)).find?
      (fun m => sliceEqB lines m pattern) with
  | some i =>
    refine ⟨i, by simp only [h1], ?_⟩
    exact sliceEqB_bound lines pattern i hp (by simpa using List.find?_some h1)
  | none =>
    simp only [h1]
    cases h2 : (List.range' (searchOriginOf lines pattern start eof)
        (lines.length - pattern.length + 1 - searchOriginOf lines pattern start eof)).find?
        (fun m => trimSliceEqB lines m pattern) with
    | some i =>
      refine ⟨i, by simp only [h2], ?_⟩
      have hmem := List.mem_of_find?_eq_some h2
      rw [List.mem_range'] at hmem
      obtain ⟨k, hk, rfl⟩ := hmem
      omega
    | none =>
      simp only [h2]
      have hjlt : j < searchOriginOf lines pattern start eof := by
        by_contra hge
        push_neg at hge
        have hmem : j ∈ List.range' (searchOriginOf lines pattern start eof)
            (lines.length - pattern.length + 1 - searchOriginOf lines pattern start eof) := by
          rw [List.mem_range']
          exact ⟨j - searchOriginOf lines pattern start eof, by omega, by omega⟩
        have : ((List.range' (searchOriginOf lines pattern start eof)
            (lines.length - pattern.length + 1 - searchOriginOf lines pattern start eof)).find?
            (fun m => sliceEqB lines m pattern)).isSome :=
          List.find?_isSome.mpr ⟨j, hmem, hj⟩
        rw [h1] at this
        exact Bool.noConfusion this
      rw [if_pos (by omega)]
      have hw : wrapMatchB lines j pattern = true := by
        unfold wrapMatchB trimSliceEqB
        have := of_decide_eq_true hj
        rw [Bool.and_eq_true, decide_eq_true_iff, decide_eq_true_iff]
        exact ⟨hjb, by rw [this]⟩
      have hsome : ((List.range (searchOriginOf lines pattern start eof)).find?
          (fun m => wrapMatchB lines m pattern)).isSome :=
        List.find?_isSome.mpr ⟨j, List.mem_range.mpr hjlt, hw⟩
      obtain ⟨i, hi⟩ := Option.isSome_iff_exists.mp hsome
      refine ⟨i, hi, ?_⟩
      have := List.find?_some hi
      unfold wrapMatchB at this
      rw [Bool.and_eq_true, decide_eq_true_iff] at this
      exact this.1

/-- On an empty document the context cursor stays put: both `seek_sequence`
and `find_line_fuzzy` fail. -/
theorem ctxCursor_nil (li0 : Nat) (ctx : Option String) : ctxCursor [] li0 ctx = li0 := by
  cases ctx with
  | none => rfl
  | some c =>
    show (match seek_sequence [] [c] li0 false with
      | some idx => idx + 1
      | none =>
        match find_line_fuzzy [] c with
        | some idx => idx + 1
        | none => li0) = li0
    have h1 : seek_sequence [] [c] li0 false = none := by
      rw [seek_sequence, if_neg (by simp), if_pos (by simp)]
    have h2 : find_line_fuzzy [] c = none := by
      rw [find_line_fuzzy]
      simp only [List.findIdx?_nil]
      split <;> rfl
    rw [h1, h2]

/-- `compute_replacements` on a single chunk whose `old_lines` occur exactly
somewhere: the chunk resolves through `seek_sequence` to one in-place
replacement. -/
theorem compute_single_found (D : List String) (chunk : UpdateFileChunk)
    (hold : chunk.old_lines ≠ []) (j : Nat) (hj : sliceEqB D j chunk.old_lines = true) :
    ∃ i, compute_replacements D [chunk]
        = [(i, chunk.old_lines.length, chunk.new_lines)]
      ∧ i + chunk.old_lines.length ≤ D.length := by
  obtain ⟨i, hseek, hib⟩ :=
    seek_sequence_found D chunk.old_lines (ctxCursor D 0 chunk.change_context)
      chunk.is_end_of_file hold j hj
  have hne : chunk.old_lines.isEmpty = false := by
    cases h : chunk.old_lines with
    | nil => exact absurd h hold
    | cons x xs => rfl
  refine ⟨i, ?_, hib⟩
  unfold compute_replacements
  rw [List.foldl_cons, List.foldl_nil]
  unfold chunkStep
  rw [if_neg (by simp [hne])]
  simp only [hseek, Option.isNone_some, Bool.false_and, Bool.false_eq_true, if_false]
  rfl

/-- The removal loop deletes exactly the `l` lines at `s` when in bounds. -/
theorem removeOldAux_eq : ∀ (l : Nat) (lines : List String) (s : Nat), s + l ≤ lines.length →
    removeOldAux l lines s = lines.take s ++ lines.drop (s + l) := by
  intro l
  induction l with
  | zero => intro lines s _; simp [removeOldAux, List.take_append_drop]
  | succ l ih =>
    intro lines s h
    have hs : s < lines.length := by omega
    rw [removeOldAux, if_pos hs,
      ih (lines.eraseIdx s) s (by rw [List.length_eraseIdx, if_pos hs]; omega),
      List.eraseIdx_eq_take_drop_succ]
    have hst : (lines.take s).length = s := by rw [List.length_take]; omega
    congr 1
    · rw [List.take_append_of_le_length (by omega), List.take_take]
      congr 1
      omega
    · rw [List.drop_append_eq_append_drop, hst, List.drop_eq_nil_of_le (by omega),
        List.nil_append, List.drop_drop]
      congr 1
      omega

/-- `insertIdx` as take/cons/drop. -/
theorem insertIdx_take_cons_drop {α : Type} (e : α) :
    ∀ (s : Nat) (l : List α), s ≤ l.length →
      List.insertIdx s e l = l.take s ++ e :: l.drop s := by
  intro s
  induction s with
  | zero => intro l _; simp [List.insertIdx_zero]
  | succ s ih =>
    intro l h
    cases l with
    | nil => simp at h
    | cons c rest =>
      rw [List.insertIdx_succ_cons, ih rest (by simpa using h)]
      simp

/-- The insertion loop splices the whole segment at `s` (and in particular
does not panic) when `s` is in bounds. -/
theorem insertSegAux_eq : ∀ (new cur : List String) (s : Nat), s ≤ cur.length →
    insertSegAux cur s new = some (cur.take s ++ new ++ cur.drop s) := by
  intro new
  induction new with
  | nil => intro cur s _; simp [insertSegAux, List.take_append_drop]
  | cons e rest ih =>
    intro cur s h
    show (if s ≤ cur.length then insertSegAux (cur.insertIdx s e) (s + 1) rest else none) = _
    rw [if_pos h,
      ih (cur.insertIdx s e) (s + 1) (by rw [List.length_insertIdx s cur h]; omega),
      insertIdx_take_cons_drop e s cur h]
    have hst : (cur.take s).length = s := by rw [List.length_take]; omega
    have hA : (cur.take s ++ e :: cur.drop s).take (s + 1) = cur.take s ++ [e] := by
      rw [List.take_append_eq_append_take, List.take_of_length_le (by omega), hst]
      simp
    have hB : (cur.take s ++ e :: cur.drop s).drop (s + 1) = cur.drop s := by
      rw [List.drop_append_eq_append_drop, List.drop_eq_nil_of_le (by omega), hst,
        List.nil_append]
      simp
    rw [hA, hB]
    simp

/-- `apply_replacements` on a single in-bounds replacement succeeds and
splices the new segment in place. -/
theorem apply_replacements_single (lines : List String) (s l : Nat) (new : List String)
    (h : s + l ≤ lines.length) :
    apply_replacements lines [(s, l, new)]
      = some (lines.take s ++ new ++ lines.drop (s + l),
          (List.range new.length).map (fun o => s + o + 1), joinLines new) := by
  have hst : (lines.take s).length = s := by rw [List.length_take]; omega
  have hone : applyOneRepl (lines, [], []) (s, l, new)
      = some (lines.take s ++ new ++ lines.drop (s + l),
          [] ++ (List.range new.length).map (fun o => s + o + 1), [] ++ new) := by
    unfold applyOneRepl
    simp only []
    rw [removeOldAux_eq l lines s h,
      insertSegAux_eq new (lines.take s ++ lines.drop (s + l)) s (by simp [hst]),
      List.take_left' hst, List.drop_left' hst]
  unfold apply_replacements
  rw [List.reverse_cons, List.reverse_nil, List.nil_append]
  show (match (match applyOneRepl (lines, [], []) (s, l, new) with
      | none => none
      | some acc2 => applyLoop [] acc2) with
    | none => none
    | some res => some (res.1, res.2.1, joinLines res.2.2)) = _
  rw [hone]
  rfl

/-- C1: for a document `D` and a chunk whose `old_lines` occur exactly once
as a contiguous sublist of `D`, `compute_replacements` followed by
`apply_replacements` succeeds (no panic) and the produced document contains
`new_lines` contiguously at the 1-indexed positions reported in
`inserted_line_numbers`. -/
theorem c1_unique_occurrence_replaced (D : List String) (chunk : UpdateFileChunk)
    (huniq : countOccurrences D chunk.old_lines = 1) :
    ∃ (s : Nat) (res : List String × List Nat × String),
      apply_replacements D (compute_replacements D [chunk]) = some res
        ∧ res.2.1 = (List.range chunk.new_lines.length).map (fun o => s + o + 1)
        ∧ (res.1.drop s).take chunk.new_lines.length = chunk.new_lines := by
  by_cases hold : chunk.old_lines = []
  · have hD : D = [] := by
      unfold countOccurrences at huniq
      rw [hold] at huniq
      simp only [List.length_nil, Nat.sub_zero] at huniq
      have hall : ∀ i, sliceEqB D i ([] : List String) = true := by
        intro i
        unfold sliceEqB
        simp
      rw [List.filter_eq_self.mpr (fun a _ => hall a), List.length_range] at huniq
      cases hD : D with
      | nil => rfl
      | cons x xs => rw [hD] at huniq; simp at huniq
    subst hD
    have hcomp : compute_replacements [] [chunk] = [(0, 0, chunk.new_lines)] := by
      unfold compute_replacements
      rw [List.foldl_cons, List.foldl_nil]
      unfold chunkStep
      rw [ctxCursor_nil, if_pos (by simp [hold])]
      cases chunk.is_end_of_file <;> rfl
    rw [hcomp]
    refine ⟨0, _, apply_replacements_single [] 0 0 chunk.new_lines (by simp), rfl, ?_⟩
    simp
  · have hocc : ∃ j, sliceEqB D j chunk.old_lines = true := by
      by_contra hno
      push_neg at hno
      unfold countOccurrences at huniq
      rw [List.filter_eq_nil_iff.mpr (fun a _ => by simp [hno a])] at huniq
      simp at huniq
    obtain ⟨j, hj⟩ := hocc
    obtain ⟨i, hcomp, hib⟩ := compute_single_found D chunk hold j hj
    rw [hcomp]
    refine ⟨i, _, apply_replacements_single D i chunk.old_lines.length chunk.new_lines hib,
      rfl, ?_⟩
    rw [List.append_assoc, List.drop_append_eq_append_drop,
      List.drop_eq_nil_of_le (by rw [List.length_take]; omega), List.nil_append,
      List.length_take, min_eq_left (by omega), Nat.sub_self, List.drop_zero,
      List.take_append_eq_append_take, List.take_of_length_le le_rfl, Nat.sub_self,
      List.take_zero, List.append_nil]

/-- C1 witness: in `["A","B","C"]` the pattern `["B"]` occurs exactly once;
the application succeeds and the replacement lines `["B","X"]` land
contiguously at the reported positions. -/
theorem c1_unique_occurrence_replaced_witness :
    countOccurrences ["A", "B", "C"] ["B"] = 1
      ∧ ∃ (s : Nat) (res : List String × List Nat × String),
          apply_replacements ["A", "B", "C"]
              (compute_replacements ["A", "B", "C"] [⟨none, ["B"], ["B", "X"], false⟩])
              = some res
            ∧ res.2.1 = (List.range (["B", "X"] : List String).length).map (fun o => s + o + 1)
            ∧ (res.1.drop s).take (["B", "X"] : List String).length = ["B", "X"] :=
  ⟨by decide, c1_unique_occurrence_replaced ["A", "B", "C"] ⟨none, ["B"], ["B", "X"], false⟩ (by decide)⟩

/-! ### C5 (amended) — trailing line feed of `apply_update_chunks` -/

/-- Joining with line feeds after appending one element. -/
theorem joinLines_append_single : ∀ (L : List String) (x : String), L ≠ [] →
    joinLines (L ++ [x]) = joinLines L ++ "\n" ++ x
  | [], _, h => absurd rfl h
  | [a], x, _ => rfl
  | a :: b :: L', x, _ => by
    show joinLines (a :: b :: (L' ++ [x])) = joinLines (a :: b :: L') ++ "\n" ++ x
    rw [joinLines, show b :: (L' ++ [x]) = (b :: L') ++ [x] from rfl,
      joinLines_append_single (b :: L') x (by simp)]
    show _ = (a ++ "\n" ++ joinLines (b :: L')) ++ "\n" ++ x
    simp only [String.append_assoc]

/-- The joined string ends exactly as its last line does (when that line is
non-empty). -/
theorem joinLines_data_getLast? : ∀ (L : List String) (l : String), L.getLast? = some l →
    l.data ≠ [] → (joinLines L).data.getLast? = l.data.getLast?
  | [], _, h, _ => by simp at h
  | [a], l, h, _ => by
    simp only [List.getLast?_singleton, Option.some.injEq] at h
    rw [h]
    rfl
  | a :: b :: L', l, h, hne => by
    have h' : (b :: L').getLast? = some l := by rw [← List.getLast?_cons_cons]; exact h
    have ih := joinLines_data_getLast? (b :: L') l h' hne
    obtain ⟨c, hc⟩ := Option.isSome_iff_exists.mp (List.getLast?_isSome.mpr hne)
    show ((a ++ "\n" ++ joinLines (b :: L')).data).getLast? = l.data.getLast?
    rw [String.data_append, List.getLast?_append, ih, hc]
    rfl

/-- C5 (amended): whenever the replacement application does not panic and
the line list it produces is non-empty and ends in a non-empty line that
does not itself end with a line feed, `apply_update_chunks` returns a
string ending with exactly one trailing line feed: its last character is
`'\n'` and the character before it is not.  (Without these conditions the
guarantee fails: deleting every line yields the empty string, a trailing
empty line in the applied result yields several line feeds, and an
out-of-range insertion panics.) -/
theorem c5_trailing_newline (text : String) (chunks : List UpdateFileChunk)
    (L : List String) (l : String)
    (happ : appliedLines text chunks = some L)
    (hlast : L.getLast? = some l)
    (hne : l ≠ "") (hnl : l.data.getLast? ≠ some '\n') :
    ∃ out : String × List Nat × String,
      apply_update_chunks text chunks = some out
        ∧ out.1.data.getLast? = some '\n'
        ∧ out.1.data.dropLast.getLast? ≠ some '\n' := by
  have hdne : l.data ≠ [] := by
    intro hd
    exact hne (String.ext hd)
  have hAe : L ≠ [] := by
    intro hA
    rw [hA] at hlast
    simp at hlast
  unfold appliedLines at happ
  cases hrep : apply_replacements (normSplit text)
      (compute_replacements (normSplit text) chunks) with
  | none => rw [hrep] at happ; exact absurd happ (by simp)
  | some res =>
    rw [hrep] at happ
    have hres1 : res.1 = L := by simpa using happ
    have hout : apply_update_chunks text chunks
        = some (joinLines (if res.1.getLast? = some "" then res.1 else res.1 ++ [""]),
            res.2.1, res.2.2) := by
      show (match apply_replacements (normSplit text)
          (compute_replacements (normSplit text) chunks) with
        | none => none
        | some res => some (joinLines (if res.1.getLast? = some "" then res.1
            else res.1 ++ [""]), res.2.1, res.2.2)) = _
      rw [hrep]
    rw [hres1] at hout
    have hd : (joinLines (if L.getLast? = some "" then L else L ++ [""])).data
        = (joinLines L).data ++ ['\n'] := by
      rw [if_neg (by rw [hlast]; simp only [Option.some.injEq]; exact fun hcon => hne hcon),
        joinLines_append_single L "" hAe, String.data_append, String.data_append]
      show _ ++ ['\n'] ++ ([] : List Char) = _ ++ ['\n']
      rw [List.append_nil]
    refine ⟨_, hout, ?_, ?_⟩
    · show (joinLines (if L.getLast? = some "" then L else L ++ [""])).data.getLast? = some '\n'
      rw [hd, List.getLast?_concat]
    · show (joinLines (if L.getLast? = some "" then L
          else L ++ [""])).data.dropLast.getLast? ≠ some '\n'
      rw [hd, List.dropLast_concat, joinLines_data_getLast? L l hlast hdne]
      exact hnl

/-- C5 witness: for the text `"A\nB\nC\n"` and the chunk replacing `"B"` by
`"B","X"`, the application succeeds, the applied line list ends in the
non-empty line `"C"`, and the output ends with exactly one line feed. -/
theorem c5_trailing_newline_witness :
    appliedLines "A\nB\nC\n" [⟨none, ["B"], ["B", "X"], false⟩] = some ["A", "B", "X", "C"]
      ∧ ∃ out : String × List Nat × String,
          apply_update_chunks "A\nB\nC\n" [⟨none, ["B"], ["B", "X"], false⟩] = some out
            ∧ out.1.data.getLast? = some '\n'
            ∧ out.1.data.dropLast.getLast? ≠ some '\n' :=
  ⟨by decide,
    c5_trailing_newline "A\nB\nC\n" [⟨none, ["B"], ["B", "X"], false⟩] ["A", "B", "X", "C"]
      "C" (by decide) (by decide) (by decide) (by decide)⟩

/-! ### C7 (amended) — pure insertions are not idempotent

The proof counts non-line-feed characters: splitting, joining, and the
trailing-line-feed fix-up preserve the count, while every application of a
pure-insertion chunk list adds exactly the inserted content's count. -/

/-- Non-line-feed count of a concatenation. -/
theorem strNN_append (a b : String) : strNN (a ++ b) = strNN a + strNN b := by
  unfold strNN
  rw [String.data_append, List.filter_append, List.length_append]

/-- Non-line-feed count over an appended line list. -/
theorem lineCharsNN_append (L M : List String) :
    lineCharsNN (L ++ M) = lineCharsNN L + lineCharsNN M := by
  unfold lineCharsNN
  rw [List.map_append, List.sum_append]

/-- Splitting on line feeds preserves the non-line-feed count (with the
pending accumulator made explicit). -/
theorem lineCharsNN_splitNlAux : ∀ (cs acc : List Char),
    lineCharsNN (splitNlAux acc cs)
      = (acc.filter (fun c => c ≠ '\n')).length + (cs.filter (fun c => c ≠ '\n')).length := by
  intro cs
  induction cs with
  | nil =>
    intro acc
    show lineCharsNN [String.mk acc.reverse] = _
    unfold lineCharsNN strNN
    simp [List.filter_reverse]
  | cons c cs ih =>
    intro acc
    have hunf : splitNlAux acc (c :: cs)
        = if c = '\n' then String.mk acc.reverse :: splitNlAux [] cs
          else splitNlAux (c :: acc) cs := rfl
    by_cases hc : c = '\n'
    · rw [hunf, if_pos hc]
      subst hc
      unfold lineCharsNN strNN
      rw [List.map_cons, List.sum_cons]
      have hrec := ih []
      unfold lineCharsNN strNN at hrec
      rw [hrec]
      simp [List.filter_reverse, List.filter_cons]
    · rw [hunf, if_neg hc, ih (c :: acc)]
      simp [List.filter_cons, hc]
      omega

/-- Splitting preserves the non-line-feed count. -/
theorem lineCharsNN_splitNl (s : String) : lineCharsNN (splitNl s) = strNN s := by
  unfold splitNl strNN
  rw [lineCharsNN_splitNlAux]
  simp

/-- Dropping the trailing empty line preserves the count. -/
theorem lineCharsNN_normSplit (s : String) : lineCharsNN (normSplit s) = strNN s := by
  show lineCharsNN (if (splitNl s).getLast? = some "" then (splitNl s).dropLast else splitNl s)
      = strNN s
  by_cases h : (splitNl s).getLast? = some ""
  · rw [if_pos h]
    obtain ⟨P, hP⟩ := List.getLast?_eq_some_iff.mp h
    have hs := lineCharsNN_splitNl s
    rw [hP] at hs ⊢
    rw [List.dropLast_concat]
    rw [lineCharsNN_append] at hs
    simpa [lineCharsNN, strNN] using hs
  · rw [if_neg h]
    exact lineCharsNN_splitNl s

/-- Joining with line feeds preserves the non-line-feed count. -/
theorem strNN_joinLines : ∀ L : List String, strNN (joinLines L) = lineCharsNN L
  | [] => by
    show strNN "" = lineCharsNN []
    simp [strNN, lineCharsNN]
  | [x] => by
    show strNN x = lineCharsNN [x]
    simp [lineCharsNN]
  | x :: y :: xs => by
    show strNN (x ++ "\n" ++ joinLines (y :: xs)) = lineCharsNN (x :: y :: xs)
    rw [strNN_append, strNN_append, strNN_joinLines (y :: xs)]
    have h1 : lineCharsNN (x :: y :: xs) = strNN x + lineCharsNN (y :: xs) := by
      unfold lineCharsNN
      rw [List.map_cons, List.sum_cons]
    have h2 : strNN "\n" = 0 := by decide
    omega

/-- A pure-insertion chunk records one zero-length replacement at an
in-bounds index and leaves the cursor at the context position. -/
theorem chunkStep_insertion (D : List String) (acc : List (Nat × Nat × List String) × Nat)
    (chunk : UpdateFileChunk) (h : chunk.old_lines = []) :
    ∃ idx, chunkStep D acc chunk
        = (acc.1 ++ [(idx, 0, chunk.new_lines)], ctxCursor D acc.2 chunk.change_context)
      ∧ idx ≤ D.length := by
  refine ⟨if chunk.is_end_of_file then D.length
    else min (ctxCursor D acc.2 chunk.change_context) D.length, ?_, ?_⟩
  · unfold chunkStep
    rw [if_pos (by simp [h])]
  · cases chunk.is_end_of_file with
    | true => simp
    | false => simp [min_le_right]

/-- The chunk fold over a pure-insertion list: every recorded replacement
is either inherited or a zero-length in-bounds insertion, and the recorded
new-line content sums to `insNN`. -/
theorem foldl_insertion_props (D : List String) :
    ∀ (chunks : List UpdateFileChunk), (∀ c ∈ chunks, c.old_lines = []) →
      ∀ acc : List (Nat × Nat × List String) × Nat,
        (∀ r ∈ (chunks.foldl (chunkStep D) acc).1, r ∈ acc.1 ∨ (r.2.1 = 0 ∧ r.1 ≤ D.length))
          ∧ (((chunks.foldl (chunkStep D) acc).1).map (fun r => lineCharsNN r.2.2)).sum
              = ((acc.1).map (fun r => lineCharsNN r.2.2)).sum + insNN chunks := by
  intro chunks
  induction chunks with
  | nil =>
    intro _ acc
    exact ⟨fun r hr => Or.inl hr, by simp [insNN]⟩
  | cons c cs ih =>
    intro hins acc
    obtain ⟨idx, hstep, hidx⟩ := chunkStep_insertion D acc c (hins c (by simp))
    rw [List.foldl_cons, hstep]
    obtain ⟨ha, hb⟩ := ih (fun c' hc' => hins c' (by simp [hc']))
      (acc.1 ++ [(idx, 0, c.new_lines)], ctxCursor D acc.2 c.change_context)
    constructor
    · intro r hr
      rcases ha r hr with hmem | hnew
      · rcases List.mem_append.mp hmem with h1 | h2
        · exact Or.inl h1
        · simp only [List.mem_singleton] at h2
          subst h2
          exact Or.inr ⟨rfl, hidx⟩
      · exact Or.inr hnew
    · rw [hb]
      simp only [List.map_append, List.sum_append, insNN, List.map_cons, List.sum_cons,
        List.map_nil, List.sum_nil]
      show _ + _ + _ = _ + (lineCharsNN c.new_lines + _)
      omega

/-- `compute_replacements` of a pure-insertion chunk list: all replacements
are zero-length in-bounds insertions and their contents sum to `insNN`. -/
theorem compute_insertion_props (D : List String) (chunks : List UpdateFileChunk)
    (hins : ∀ c ∈ chunks, c.old_lines = []) :
    (∀ r ∈ compute_replacements D chunks, r.2.1 = 0 ∧ r.1 ≤ D.length)
      ∧ ((compute_replacements D chunks).map (fun r => lineCharsNN r.2.2)).sum
          = insNN chunks := by
  obtain ⟨ha, hb⟩ := foldl_insertion_props D chunks hins ([], 0)
  have hperm : (compute_replacements D chunks).Perm (chunks.foldl (chunkStep D) ([], 0)).1 :=
    List.perm_insertionSort _ _
  constructor
  · intro r hr
    rcases ha r (hperm.mem_iff.mp hr) with h1 | h2
    · simp at h1
    · exact h2
  · rw [(hperm.map (fun r => lineCharsNN r.2.2)).sum_eq, hb]
    simp

/-- Splicing a segment into a list grows the non-line-feed count by the
segment's and the length by the segment's length. -/
theorem lineCharsNN_splice (new cur : List String) (s : Nat) (h : s ≤ cur.length) :
    lineCharsNN (cur.take s ++ new ++ cur.drop s) = lineCharsNN cur + lineCharsNN new
      ∧ (cur.take s ++ new ++ cur.drop s).length = cur.length + new.length := by
  constructor
  · rw [lineCharsNN_append, lineCharsNN_append]
    have : lineCharsNN (cur.take s) + lineCharsNN (cur.drop s) = lineCharsNN cur := by
      rw [← lineCharsNN_append, List.take_append_drop]
    omega
  · simp only [List.length_append, List.length_take, List.length_drop]
    omega

/-- The replacement loop over zero-length in-bounds insertions never panics,
adds exactly the inserted contents' non-line-feed counts, and never shrinks
the list. -/
theorem apply_fold_insertion (n : Nat) :
    ∀ (rs : List (Nat × Nat × List String)), (∀ r ∈ rs, r.2.1 = 0 ∧ r.1 ≤ n) →
      ∀ (cur : List String) (nums : List Nat) (ins : List String), n ≤ cur.length →
        ∃ final : List String × List Nat × List String,
          applyLoop rs (cur, nums, ins) = some final
            ∧ lineCharsNN final.1 = lineCharsNN cur + (rs.map (fun r => lineCharsNN r.2.2)).sum
            ∧ cur.length ≤ final.1.length := by
  intro rs
  induction rs with
  | nil => intro _ cur nums ins _; exact ⟨(cur, nums, ins), rfl, by simp, le_rfl⟩
  | cons r rs ih =>
    intro hall cur nums ins hn
    obtain ⟨h0, hle⟩ := hall r (by simp)
    have hone : applyOneRepl (cur, nums, ins) r
        = some (cur.take r.1 ++ r.2.2 ++ cur.drop r.1,
            nums ++ (List.range r.2.2.length).map (fun o => r.1 + o + 1), ins ++ r.2.2) := by
      unfold applyOneRepl
      rw [h0]
      show (match insertSegAux cur r.1 r.2.2 with
        | none => none
        | some lines2 => some (lines2,
            nums ++ (List.range r.2.2.length).map (fun o => r.1 + o + 1), ins ++ r.2.2)) = _
      rw [insertSegAux_eq r.2.2 cur r.1 (by omega)]
    obtain ⟨hcount, hlen⟩ := lineCharsNN_splice r.2.2 cur r.1 (by omega)
    obtain ⟨final, hfin, hc, hl⟩ := ih (fun r' hr' => hall r' (by simp [hr']))
      (cur.take r.1 ++ r.2.2 ++ cur.drop r.1)
      (nums ++ (List.range r.2.2.length).map (fun o => r.1 + o + 1)) (ins ++ r.2.2)
      (by omega)
    refine ⟨final, ?_, ?_, ?_⟩
    · show (match applyOneRepl (cur, nums, ins) r with
        | none => none
        | some acc2 => applyLoop rs acc2) = some final
      rw [hone]
      exact hfin
    · rw [hc, hcount]
      simp only [List.map_cons, List.sum_cons]
      omega
    · omega

/-- Every application of a pure-insertion chunk list succeeds (no panic)
and grows the non-line-feed character count of the document by exactly
`insNN chunks`. -/
theorem strNN_apply_update (text : String) (chunks : List UpdateFileChunk)
    (hins : ∀ c ∈ chunks, c.old_lines = []) :
    ∃ out : String × List Nat × String,
      apply_update_chunks text chunks = some out
        ∧ strNN out.1 = strNN text + insNN chunks := by
  obtain ⟨hall, hsum⟩ := compute_insertion_props (normSplit text) chunks hins
  have hall' : ∀ r ∈ (compute_replacements (normSplit text) chunks).reverse,
      r.2.1 = 0 ∧ r.1 ≤ (normSplit text).length := by
    intro r hr
    exact hall r (List.mem_reverse.mp hr)
  obtain ⟨final, hloop, hc, -⟩ := apply_fold_insertion (normSplit text).length
    (compute_replacements (normSplit text) chunks).reverse hall' (normSplit text) [] [] le_rfl
  have happly : apply_replacements (normSplit text) (compute_replacements (normSplit text) chunks)
      = some (final.1, final.2.1, joinLines final.2.2) := by
    unfold apply_replacements
    rw [hloop]
  have hcc : lineCharsNN final.1 = lineCharsNN (normSplit text) + insNN chunks := by
    rw [hc, List.map_reverse, List.sum_reverse, hsum]
  refine ⟨(joinLines (if final.1.getLast? = some "" then final.1 else final.1 ++ [""]),
      final.2.1, joinLines final.2.2), ?_, ?_⟩
  · show (match apply_replacements (normSplit text)
        (compute_replacements (normSplit text) chunks) with
      | none => none
      | some res => some (joinLines (if res.1.getLast? = some "" then res.1
          else res.1 ++ [""]), res.2.1, res.2.2)) = _
    rw [happly]
  · show strNN (joinLines (if final.1.getLast? = some "" then final.1 else final.1 ++ [""]))
        = strNN text + insNN chunks
    rw [strNN_joinLines]
    split
    · rw [hcc, lineCharsNN_normSplit]
    · rw [lineCharsNN_append, hcc, lineCharsNN_normSplit]
      simp [lineCharsNN, strNN]

/-- C7 (amended): for every document and pure-insertion chunk list (each
chunk has empty `old_lines` and non-empty `new_lines`) that inserts at
least one non-line-feed character, applying the patch twice is not the same
as applying it once — each application grows the non-line-feed character
count by the inserted content's size, so the second application duplicates
the insertion.  (Insertions consisting solely of empty lines can be
absorbed by the trailing-line-feed normalisation.) -/
theorem c7_insertions_not_idempotent (text : String) (chunks : List UpdateFileChunk)
    (hins : ∀ c ∈ chunks, c.old_lines = [] ∧ c.new_lines ≠ [])
    (hcontent : 0 < insNN chunks) :
    ∃ out1 out2 : String × List Nat × String,
      apply_update_chunks text chunks = some out1
        ∧ apply_update_chunks out1.1 chunks = some out2
        ∧ out2.1 ≠ out1.1
        ∧ strNN out1.1 = strNN text + insNN chunks := by
  obtain ⟨out1, hout1, hc1⟩ := strNN_apply_update text chunks (fun c hc => (hins c hc).1)
  obtain ⟨out2, hout2, hc2⟩ := strNN_apply_update out1.1 chunks (fun c hc => (hins c hc).1)
  refine ⟨out1, out2, hout1, hout2, ?_, hc1⟩
  intro he
  rw [he, hc1] at hc2
  omega

/-- C7 witness: inserting the line `"X"` into `"A"` is not idempotent and
adds one non-line-feed character per application. -/
theorem c7_insertions_not_idempotent_witness :
    (∀ c ∈ ([⟨none, [], ["X"], false⟩] : List UpdateFileChunk),
        c.old_lines = [] ∧ c.new_lines ≠ [])
      ∧ 0 < insNN [⟨none, [], ["X"], false⟩]
      ∧ (∃ out1 out2 : String × List Nat × String,
          apply_update_chunks "A" [⟨none, [], ["X"], false⟩] = some out1
            ∧ apply_update_chunks out1.1 [⟨none, [], ["X"], false⟩] = some out2
            ∧ out2.1 ≠ out1.1
            ∧ strNN out1.1 = strNN "A" + insNN [⟨none, [], ["X"], false⟩]) :=
  ⟨by decide, by decide,
    c7_insertions_not_idempotent "A" [⟨none, [], ["X"], false⟩] (by decide) (by decide)⟩

end Liminal
